import Mathlib

/-!
# Verification of the Study-Strata scheduling engine

Shallow embedding of `src/backend/app/utils/algorithms.py`: the domain
model (`SchedulingNode`, `SchedulingSolution`), the quarter-label utility,
`GraphBasedScheduler`, `ConstraintSatisfactionScheduler`,
`GeneticScheduler`, `calculate_schedule_similarity` and
`optimize_schedule_diversity`, together with theorems about them.

Python `int` values are modelled as `Int` (`Nat` for indices), `float`
scores as `ℚ` (the scores the code produces are exact decimal literals),
Python dicts as insertion-ordered association lists, and Python sets of
strings as membership in accumulated lists.
-/

namespace StudyStrata

/-- `SchedulingNode` dataclass (algorithms.py lines 17-25). The unused
`priority` field is omitted; nothing in the embedded code reads it. -/
structure SchedulingNode where
  course_id : String
  units : Int
  difficulty : Int
  prerequisites : List String
  offered_quarters : List String
deriving Repr, DecidableEq, Inhabited

/-- One `{'id': ..., 'units': ..., 'difficulty': ...}` course dict as it
appears inside a quarter record. -/
structure CourseEntry where
  id : String
  units : Int
  difficulty : Int
deriving Repr, DecidableEq, Inhabited

/-- One `{'quarter': ..., 'courses': ..., 'total_units': ...}` dict. -/
structure QuarterRec where
  quarter : String
  courses : List CourseEntry
  total_units : Int
deriving Repr, DecidableEq, Inhabited

/-- `SchedulingSolution` dataclass (lines 27-33). -/
structure SchedulingSolution where
  quarters : List QuarterRec
  total_score : ℚ
  feasible : Bool
  violations : List String
deriving Repr, DecidableEq, Inhabited

/-- The constraints dict. Only these keys are ever read by the embedded
code; a `none` field models an absent key, read back through the
`dict.get(key, default)` idiom. -/
structure Constraints where
  max_units_per_quarter : Option Int := none
  min_units_per_quarter : Option Int := none
  max_quarters : Option Nat := none
deriving Repr, DecidableEq, Inhabited

/-- `constraints.get('max_units_per_quarter', 20)`. -/
def Constraints.maxUnits (c : Constraints) : Int :=
  c.max_units_per_quarter.getD 20

/-- `constraints.get('min_units_per_quarter', 12)`. -/
def Constraints.minUnits (c : Constraints) : Int :=
  c.min_units_per_quarter.getD 12

/-- `constraints.get('max_quarters', 12)` (read by the genetic strategy). -/
def Constraints.maxQuarters (c : Constraints) : Nat :=
  c.max_quarters.getD 12

/-- The `quarters = ["Fall", "Winter", "Spring"]` list shared (textually)
by every `_get_quarter_name` implementation. -/
def quarterSeasons : List String := ["Fall", "Winter", "Spring"]

namespace GeneticScheduler

/-- `GeneticScheduler._get_quarter_name` (lines 274-279):
season `quarters[idx % 3]`, year `2024 + idx // 3`. -/
def get_quarter_name (quarter_idx : Nat) : String :=
  (quarterSeasons.getD (quarter_idx % 3) "") ++ " " ++ toString (2024 + quarter_idx / 3)

end GeneticScheduler

namespace ConstraintSatisfactionScheduler

/-- `ConstraintSatisfactionScheduler._get_quarter_name` (lines 407-412),
textually identical to the genetic one. -/
def get_quarter_name (quarter_idx : Nat) : String :=
  (quarterSeasons.getD (quarter_idx % 3) "") ++ " " ++ toString (2024 + quarter_idx / 3)

end ConstraintSatisfactionScheduler

namespace GraphBasedScheduler

/-- `GraphBasedScheduler._get_quarter_name` (lines 550-555),
textually identical to the other two. -/
def get_quarter_name (quarter_idx : Nat) : String :=
  (quarterSeasons.getD (quarter_idx % 3) "") ++ " " ++ toString (2024 + quarter_idx / 3)

/-- The season component of a term label: `quarters[idx % 3]`. The source
recovers it as `quarter_name.split()[0]`, which equals this because every
label is `<season> <year>` with a space-free season. -/
def quarterSeason (quarter_idx : Nat) : String :=
  quarterSeasons.getD (quarter_idx % 3) ""

end GraphBasedScheduler

namespace GraphBasedScheduler

/-- Mutable state of one `GraphBasedScheduler` instance: the networkx
`DiGraph` (node list and edge list, in insertion order) and the
`course_data` dict.  `__init__` (lines 446-448) starts them empty; no
method ever clears them, so they persist across calls on one instance. -/
structure GraphState where
  nodes : List String
  edges : List (String × String)
  course_data : List (String × SchedulingNode)
deriving Repr, DecidableEq, Inhabited

/-- `GraphBasedScheduler.__init__`: empty graph, empty course data. -/
def GraphState.init : GraphState := ⟨[], [], []⟩

/-- `DiGraph.add_node`: appends a new node, no-op for an existing one. -/
def addNode (nodes : List String) (v : String) : List String :=
  if v ∈ nodes then nodes else nodes ++ [v]

/-- `DiGraph.add_edge` for endpoints already present as nodes: appends a
new edge, no-op for an existing one (no parallel edges in a `DiGraph`). -/
def addEdge (edges : List (String × String)) (e : String × String) :
    List (String × String) :=
  if e ∈ edges then edges else edges ++ [e]

/-- Python dict assignment `d[k] = v`: overwrite in place if the key
exists (keeping its position), else append. -/
def dictInsert (d : List (String × SchedulingNode)) (k : String)
    (v : SchedulingNode) : List (String × SchedulingNode) :=
  if k ∈ d.map Prod.fst then
    d.map (fun p => if p.1 = k then (k, v) else p)
  else d ++ [(k, v)]

/-- First phase of `_build_graph` (lines 483-486): add the course as a
node and record it in `course_data`. -/
def addCourseNode (s : GraphState) (course : SchedulingNode) : GraphState :=
  { s with
    nodes := addNode s.nodes course.course_id
    course_data := dictInsert s.course_data course.course_id course }

/-- Second phase of `_build_graph` (lines 489-492), one prerequisite: add
the edge `prereq → course` when the prerequisite id is a `course_data`
key; unknown prerequisite ids are silently ignored. -/
def addPrereqEdge (course_id : String) (s2 : GraphState) (prereq : String) :
    GraphState :=
  if (s2.course_data.lookup prereq).isSome then
    { s2 with edges := addEdge s2.edges (prereq, course_id) }
  else s2

/-- Second phase of `_build_graph`, one course: fold over its declared
prerequisites. -/
def addCourseEdges (s : GraphState) (course : SchedulingNode) : GraphState :=
  course.prerequisites.foldl (addPrereqEdge course.course_id) s

/-- `_build_graph` (lines 481-492) on top of the existing instance state:
first add every course as a node and record it in `course_data`, then add
the prerequisite edges. -/
def build_graph (st : GraphState) (courses : List SchedulingNode) : GraphState :=
  courses.foldl addCourseEdges (courses.foldl addCourseNode st)

/-- In-degree of `v` in the edge list. -/
def inDegree (edges : List (String × String)) (v : String) : Nat :=
  (edges.filter (fun e => e.2 == v)).length

/-- Successors of `v`, in edge-insertion order. -/
def successors (edges : List (String × String)) (v : String) : List String :=
  (edges.filter (fun e => e.1 == v)).map Prod.snd

/-- Processing of one yielded node inside Kahn's algorithm, as in
networkx `topological_generations`: decrement each successor's entry in
the positive-in-degree map; a successor reaching zero leaves the map and
joins the next generation in discovery order.  A successor absent from
the map cannot arise on a well-formed graph (networkx would raise
"graph changed during iteration") and is skipped. -/
def processNode (edges : List (String × String))
    (state : List (String × Nat) × List String) (node : String) :
    List (String × Nat) × List String :=
  (successors edges node).foldl
    (fun st child =>
      match st.1.lookup child with
      | some d =>
          if d - 1 = 0 then
            (st.1.filter (fun p => p.1 != child), st.2 ++ [child])
          else
            (st.1.map (fun p => if p.1 == child then (child, d - 1) else p), st.2)
      | none => st)
    state

/-- The generation loop of Kahn's algorithm.  Each executed iteration
yields a non-empty generation of distinct nodes, so `nodes.length + 1`
fuel always outlasts the loop. -/
def kahnLoop (edges : List (String × String)) :
    Nat → List (String × Nat) → List String → List String
  | 0, _, _ => []
  | fuel + 1, indeg, zero =>
      if zero = [] then []
      else
        let step := zero.foldl (processNode edges) (indeg, [])
        zero ++ kahnLoop edges fuel step.1 step.2

/-- `nx.topological_sort` on the instance graph: concatenation of the
Kahn generations, each in node-insertion order (ties broken by input
order, as the spec states for networkx ≥ 3; the concrete graphs proved
about below sort identically under the networkx 2.x LIFO order). -/
def topological_sort (st : GraphState) : List String :=
  kahnLoop st.edges (st.nodes.length + 1)
    ((st.nodes.map (fun v => (v, inDegree st.edges v))).filter (fun p => p.2 != 0))
    (st.nodes.filter (fun v => inDegree st.edges v == 0))

/-- `nx.is_directed_acyclic_graph`, rendered executably exactly as
networkx decides it: a directed graph is acyclic iff a topological sort
covers every node. -/
def isDag (st : GraphState) : Bool :=
  (topological_sort st).length == st.nodes.length

/-- The `for course_id in remaining_courses.copy()` scan of one quarter
inside `_create_schedule_from_order` (lines 510-537).  Arguments after
the snapshot list: collected quarter entries, quarter units, remaining
courses, completed set.  A course is admitted when every prerequisite is
already completed, the season is offered, and `quarter_units +
course.units` does not exceed the max; after an admission the scan breaks
once `quarter_units ≥ min_units` and at least 3 courses are collected.
The `course_data` lookup cannot miss (every scheduled node has data); a
miss is modelled as a skip. -/
def scanQuarter (course_data : List (String × SchedulingNode)) (season : String)
    (max_units min_units : Int) :
    List String → List CourseEntry → Int → List String → List String →
      List CourseEntry × Int × List String × List String
  | [], qc, qu, remaining, completed => (qc, qu, remaining, completed)
  | course_id :: rest, qc, qu, remaining, completed =>
      match course_data.lookup course_id with
      | none => scanQuarter course_data season max_units min_units rest qc qu remaining completed
      | some course =>
          if ¬ (∀ p ∈ course.prerequisites, p ∈ completed) then
            scanQuarter course_data season max_units min_units rest qc qu remaining completed
          else if season ∉ course.offered_quarters then
            scanQuarter course_data season max_units min_units rest qc qu remaining completed
          else if qu + course.units > max_units then
            scanQuarter course_data season max_units min_units rest qc qu remaining completed
          else
            let qc' := qc ++ [⟨course_id, course.units, course.difficulty⟩]
            let qu' := qu + course.units
            let remaining' := remaining.erase course_id
            let completed' := completed ++ [course_id]
            if qu' ≥ min_units ∧ qc'.length ≥ 3 then (qc', qu', remaining', completed')
            else scanQuarter course_data season max_units min_units rest qc' qu' remaining' completed'

/-- The `while remaining_courses and quarter_idx < 12` loop of
`_create_schedule_from_order` (lines 504-546).  `fuel` counts down from 12
as `quarter_idx` counts up from 0, so fuel exhaustion is exactly the
hard-coded `quarter_idx < 12` bound of the source.  A quarter is appended
only when it received at least one course. -/
def scheduleLoop (course_data : List (String × SchedulingNode))
    (max_units min_units : Int) :
    Nat → Nat → List String → List String → List QuarterRec → List QuarterRec
  | 0, _, _, _, schedule => schedule
  | fuel + 1, quarter_idx, remaining, completed, schedule =>
      if remaining = [] then schedule
      else
        let res := scanQuarter course_data (quarterSeason quarter_idx) max_units min_units
          remaining [] 0 remaining completed
        let schedule' :=
          if res.1 = [] then schedule
          else schedule ++ [⟨get_quarter_name quarter_idx, res.1, res.2.1⟩]
        scheduleLoop course_data max_units min_units fuel (quarter_idx + 1)
          res.2.2.1 res.2.2.2 schedule'

/-- `_create_schedule_from_order` (lines 494-548). -/
def create_schedule_from_order (st : GraphState) (topo_order : List String)
    (constraints : Constraints) : List QuarterRec :=
  scheduleLoop st.course_data constraints.maxUnits constraints.minUnits
    12 0 topo_order [] []

/-- `create_optimal_schedule` (lines 450-479), explicit about the
instance state: build the prerequisite graph on top of `st`, fail with
the cycle violation if the resulting graph is not a DAG, otherwise pack
the topological order into quarters.  Returns the solution together with
the instance state left behind by the call. -/
def create_optimal_schedule (st : GraphState) (courses : List SchedulingNode)
    (constraints : Constraints) : SchedulingSolution × GraphState :=
  let st' := build_graph st courses
  if !(isDag st') then
    (⟨[], 0, false, ["Prerequisite cycle detected"]⟩, st')
  else
    (⟨create_schedule_from_order st' (topological_sort st') constraints,
      (0.85 : ℚ), true, []⟩, st')

/-- One call on a freshly constructed `GraphBasedScheduler()`. -/
def createOptimalScheduleFresh (courses : List SchedulingNode)
    (constraints : Constraints) : SchedulingSolution :=
  (create_optimal_schedule GraphState.init courses constraints).1

end GraphBasedScheduler

/-- All course ids of a schedule, in order. -/
def idsIn (qs : List QuarterRec) : List String :=
  (qs.map (fun q => q.courses.map CourseEntry.id)).flatten

/-- The ordering invariant exactly as claim C1 states it: every assigned
course's prerequisites that belong to the input course set are assigned
in a strictly earlier term, i.e. appear among the ids of quarters
`0..i-1` (`idsIn (qs.take i)`). -/
def prereqsStrictlyEarlier (courses : List SchedulingNode)
    (qs : List QuarterRec) : Prop :=
  ∀ i, ∀ hi : i < qs.length, ∀ e ∈ (qs.get ⟨i, hi⟩).courses,
    ∀ c ∈ courses, c.course_id = e.id →
      ∀ p ∈ c.prerequisites, p ∈ courses.map SchedulingNode.course_id →
        p ∈ idsIn (qs.take i)

/-- The amended ordering invariant: prerequisites are assigned in the
same or an earlier term, i.e. appear among the ids of quarters `0..i`
(`idsIn (qs.take (i + 1))`). -/
def prereqsSameOrEarlier (courses : List SchedulingNode)
    (qs : List QuarterRec) : Prop :=
  ∀ i, ∀ hi : i < qs.length, ∀ e ∈ (qs.get ⟨i, hi⟩).courses,
    ∀ c ∈ courses, c.course_id = e.id →
      ∀ p ∈ c.prerequisites, p ∈ courses.map SchedulingNode.course_id →
        p ∈ idsIn (qs.take (i + 1))

instance (courses : List SchedulingNode) (qs : List QuarterRec) :
    Decidable (prereqsStrictlyEarlier courses qs) := by
  unfold prereqsStrictlyEarlier; infer_instance

instance (courses : List SchedulingNode) (qs : List QuarterRec) :
    Decidable (prereqsSameOrEarlier courses qs) := by
  unfold prereqsSameOrEarlier; infer_instance

namespace GraphBasedScheduler

/-- Intermediate invariant for the schedule loop: every entry of quarter
`i` stems from a `course_data` course whose prerequisites all appear
among the ids of quarters `0..i`. -/
def quarterOk (cd : List (String × SchedulingNode)) (qs : List QuarterRec) : Prop :=
  ∀ i, ∀ hi : i < qs.length, ∀ e ∈ (qs.get ⟨i, hi⟩).courses,
    ∃ course, cd.lookup e.id = some course ∧
      ∀ p ∈ course.prerequisites, p ∈ idsIn (qs.take (i + 1))

end GraphBasedScheduler

namespace ConstraintSatisfactionScheduler

/-- The domain of one course inside `_setup_csp` (lines 353-361): the
term indices in `range(max_quarters)` whose season — the first word of
the quarter label, i.e. `quarters[idx % 3]` — is among the course's
offered quarters. -/
def courseDomain (max_quarters : Nat) (course : SchedulingNode) : List Nat :=
  (List.range max_quarters).filter
    (fun qi => course.offered_quarters.contains (quarterSeasons.getD (qi % 3) ""))

/-- Python dict assignment `self.domains[course.course_id] = ...`:
overwrite in place if the key exists, else append. -/
def insertDomain (d : List (String × List Nat)) (k : String) (v : List Nat) :
    List (String × List Nat) :=
  if k ∈ d.map Prod.fst then
    d.map (fun p => if p.1 = k then (k, v) else p)
  else d ++ [(k, v)]

/-- The `self.domains` dict built by `_setup_csp`. -/
def setupDomains (courses : List SchedulingNode) (max_quarters : Nat) :
    List (String × List Nat) :=
  courses.foldl (fun d c => insertDomain d c.course_id (courseDomain max_quarters c)) []

/-- `_is_consistent` (lines 390-395): the courses already assigned to the
candidate term, plus the candidate itself, may number at most 5. -/
def is_consistent (vr : String) (value : Nat) (assignment : List (String × Nat)) :
    Bool :=
  decide ((assignment.filter (fun p => p.2 == value)).length + 1 ≤ 5)

/-- `min(unassigned, key=lambda x: len(self.domains[x]))`: the first
element with minimal domain size (Python's `min` keeps the earliest
minimum). -/
def minByDomainSize (domains : List (String × List Nat)) :
    List String → Option String
  | [] => none
  | v :: vs =>
      some (vs.foldl
        (fun best x =>
          if ((domains.lookup x).getD []).length < ((domains.lookup best).getD []).length
          then x else best)
        v)

/-- The `for value in self.domains[var]` loop of `_backtrack_search`
(lines 372-386): tentatively extend the assignment with each consistent
value (`_forward_check` always returns `{}`, never `None`, and
`_restore_domains` is a no-op, so both vanish), recursing — the recursive
search is passed in as `bt` so that the pair of functions is structurally
recursive — and undoing on failure. -/
def tryValues
    (bt : List (String × Nat) → Except String (Option (List (String × Nat))))
    (vr : String) :
    List Nat → List (String × Nat) → Except String (Option (List (String × Nat)))
  | [], _ => .ok none
  | value :: rest, assignment =>
    if is_consistent vr value assignment then
      match bt (assignment ++ [(vr, value)]) with
      | .ok (some result) => .ok (some result)
      | .ok none => tryValues bt vr rest assignment
      | .error e => .error e
    else tryValues bt vr rest assignment

/-- `_backtrack_search` (lines 363-388).  A complete assignment is
returned as found; otherwise the most-constrained unassigned variable is
tried against its domain values in order.  `min` over an empty unassigned
list raises in Python (possible when duplicate course ids keep
`len(assignment)` below `len(variables)` forever); that exception — like
the unreachable fuel exhaustion — is modelled as `.error`.  The fuel
drops by one per nested assignment, so `variables.length + 1` outlasts
any search from an empty assignment. -/
def backtrack_search (domains : List (String × List Nat))
    (vars : List String) :
    Nat → List (String × Nat) → Except String (Option (List (String × Nat)))
  | fuel, assignment =>
    if assignment.length = vars.length then .ok (some assignment)
    else
      match minByDomainSize domains
          (vars.filter (fun v => !(assignment.map Prod.fst).contains v)) with
      | none => .error "min() arg is an empty sequence"
      | some vr =>
        match fuel with
        | 0 => .error "maximum recursion depth exceeded"
        | fuel + 1 =>
            tryValues (backtrack_search domains vars fuel) vr
              ((domains.lookup vr).getD []) assignment

/-- Ascending insertion of a term index, for `sorted(schedule_dict.keys())`. -/
def insertSorted (x : Nat) : List Nat → List Nat
  | [] => [x]
  | y :: ys => if x < y then x :: y :: ys else y :: insertSorted x ys

/-- `sorted` on term indices. -/
def sortNats (l : List Nat) : List Nat := l.foldr insertSorted []

/-- `_convert_assignment_to_schedule` (lines 414-441): group the
assignment by term index (`defaultdict` keyed in first-occurrence order),
then emit quarters for the sorted indices; each course entry is rebuilt
from the last input course carrying that id (`course_map` is a dict
comprehension, so later duplicates win), and `total_units` sums the
quarter's units. -/
def convert_assignment_to_schedule (assignment : List (String × Nat))
    (courses : List SchedulingNode) : List QuarterRec :=
  let keys := (assignment.map Prod.snd).eraseDups
  (sortNats keys).map (fun qi =>
    let cs := (assignment.filter (fun p => p.2 == qi)).filterMap
      (fun p => (courses.reverse.find? (fun c => c.course_id == p.1)).map
        (fun course => CourseEntry.mk p.1 course.units course.difficulty))
    ⟨get_quarter_name qi, cs, (cs.map CourseEntry.units).sum⟩)

/-- `solve_schedule` (lines 315-347): run the backtracking search from an
empty assignment; a truthy (non-empty) complete assignment becomes a
feasible solution with the placeholder score 0.8, anything falsy becomes
the "No feasible schedule found" failure, and an exception `e` the
`except`-branch solution `[str(e)]`.  The constraints dict is accepted
but never read (`_setup_csp` ignores it). -/
def solve_schedule (courses : List SchedulingNode) (constraints : Constraints)
    (max_quarters : Nat := 12) : SchedulingSolution :=
  let domains := setupDomains courses max_quarters
  let vars := courses.map SchedulingNode.course_id
  match backtrack_search domains vars (vars.length + 1) [] with
  | .error e => ⟨[], 0, false, [e]⟩
  | .ok (some assignment) =>
      if assignment = [] then ⟨[], 0, false, ["No feasible schedule found"]⟩
      else ⟨convert_assignment_to_schedule assignment courses, (0.8 : ℚ), true, []⟩
  | .ok none => ⟨[], 0, false, ["No feasible schedule found"]⟩

end ConstraintSatisfactionScheduler

namespace GeneticScheduler

/-- One genetic individual: an ordered list of quarter records. -/
abbrev Ind := List QuarterRec

/-!
The `random` module is modelled as an injected stream of naturals
`stream : Nat → Nat` read at an advancing counter, one value per draw —
the abstraction of a seeded PRNG the spec itself directs (§9).  Theorems
below quantify over every stream, hence over every seed of any generator.
Floating-point fitness (`_evaluate_fitness` uses `np.std`) is abstracted
as a parameter `fit : Ind → ℚ`; the claims proved here hold for every
fitness function, so nothing depends on its value.
-/

/-- `random.random()` from one drawn value: a number in `[0, 1)`. -/
def randFloat (v : Nat) : ℚ := (v % 2 ^ 53 : Nat) / (2 ^ 53 : ℚ)

/-- Draw-and-remove permutation engine behind `random.shuffle` (fuel =
list length) and `random.sample` (fuel = sample size): each step draws
one value, picks that position of the current list, and removes it. -/
def shuffleGo {α : Type} (stream : Nat → Nat) :
    Nat → Nat → List α → List α × Nat
  | 0, ctr, _ => ([], ctr)
  | _ + 1, ctr, [] => ([], ctr)
  | fuel + 1, ctr, x :: xs =>
      let j := stream ctr % (x :: xs).length
      match (x :: xs).drop j with
      | [] => ([], ctr + 1)
      | y :: rest =>
          let out := shuffleGo stream fuel (ctr + 1) ((x :: xs).take j ++ rest)
          (y :: out.1, out.2)

/-- `random.shuffle(l)`: a stream-chosen permutation of `l`. -/
def pyShuffle {α : Type} (stream : Nat → Nat) (ctr : Nat) (l : List α) :
    List α × Nat :=
  shuffleGo stream l.length ctr l

/-- `random.sample(l, k)` (`k ≤ len(l)` at every call site): `k` distinct
stream-chosen elements. -/
def pySample {α : Type} (stream : Nat → Nat) (ctr : Nat) (l : List α) (k : Nat) :
    List α × Nat :=
  shuffleGo stream k ctr l

/-- The `for course in remaining_courses.copy()` scan of one quarter in
`_create_random_schedule` (lines 111-136): admit a course when its
prerequisites are all completed, the season is offered, and the unit cap
is kept; stop after the 4th admitted course. -/
def scanGeneticQuarter (season : String) (max_units : Int) :
    List SchedulingNode → List CourseEntry → Int → List SchedulingNode →
      List String → List CourseEntry × Int × List SchedulingNode × List String
  | [], qc, qu, remaining, completed => (qc, qu, remaining, completed)
  | course :: rest, qc, qu, remaining, completed =>
      if ¬ (∀ p ∈ course.prerequisites, p ∈ completed) then
        scanGeneticQuarter season max_units rest qc qu remaining completed
      else if season ∉ course.offered_quarters then
        scanGeneticQuarter season max_units rest qc qu remaining completed
      else if qu + course.units > max_units then
        scanGeneticQuarter season max_units rest qc qu remaining completed
      else
        let qc' := qc ++ [CourseEntry.mk course.course_id course.units course.difficulty]
        let qu' := qu + course.units
        let remaining' := remaining.erase course
        let completed' := completed ++ [course.course_id]
        if qc'.length ≥ 4 then (qc', qu', remaining', completed')
        else scanGeneticQuarter season max_units rest qc' qu' remaining' completed'

/-- The `for quarter_idx in range(max_quarters)` loop of
`_create_random_schedule` (lines 99-145): shuffle the remaining courses,
scan them for the quarter, and append the quarter record when non-empty.
The fuel counts the remaining term budget as `quarter_idx` counts up. -/
def createRandomScheduleLoop (stream : Nat → Nat) (max_units : Int) :
    Nat → Nat → Nat → List SchedulingNode → List String → List QuarterRec →
      List QuarterRec × Nat
  | 0, _, ctr, _, _, schedule => (schedule, ctr)
  | fuel + 1, qidx, ctr, remaining, completed, schedule =>
      if remaining = [] then (schedule, ctr)
      else
        let sh := pyShuffle stream ctr remaining
        let res := scanGeneticQuarter (quarterSeasons.getD (qidx % 3) "") max_units
          sh.1 [] 0 sh.1 completed
        let schedule' :=
          if res.1 = [] then schedule
          else schedule ++ [⟨get_quarter_name qidx, res.1, res.2.1⟩]
        createRandomScheduleLoop stream max_units fuel (qidx + 1) sh.2
          res.2.2.1 res.2.2.2 schedule'

/-- `_create_random_schedule` (lines 93-145). -/
def create_random_schedule (stream : Nat → Nat) (ctr : Nat)
    (courses : List SchedulingNode) (constraints : Constraints)
    (max_quarters : Nat) : List QuarterRec × Nat :=
  createRandomScheduleLoop stream constraints.maxUnits max_quarters 0 ctr courses [] []

/-- `_initialize_population` (lines 82-91): `population_size` random
schedules in order. -/
def initPopGo (stream : Nat → Nat) (courses : List SchedulingNode)
    (constraints : Constraints) (max_quarters : Nat) :
    Nat → Nat → List Ind → List Ind × Nat
  | 0, ctr, acc => (acc, ctr)
  | n + 1, ctr, acc =>
      let r := create_random_schedule stream ctr courses constraints max_quarters
      initPopGo stream courses constraints max_quarters n r.2 (acc ++ [r.1])

/-- Maximum of a fitness list (`max(fitness_scores)`), 0 on empty (the
empty case is guarded by `_has_converged`). -/
def listMax : List ℚ → ℚ
  | [] => 0
  | x :: xs => xs.foldl max x

/-- Minimum of a fitness list. -/
def listMin : List ℚ → ℚ
  | [] => 0
  | x :: xs => xs.foldl min x

/-- `_has_converged` (lines 267-272), threshold 0.01. -/
def has_converged (scores : List ℚ) : Bool :=
  if scores.length < 2 then false
  else decide (listMax scores - listMin scores < 1 / 100)

/-- Python's `max(pairs, key=lambda x: x[1])`: first pair of maximal
second component; raises on an empty list. -/
def pyMaxBySnd : List (Ind × ℚ) → Except String (Ind × ℚ)
  | [] => .error "max() arg is an empty sequence"
  | x :: xs => .ok (xs.foldl (fun acc c => if c.2 > acc.2 then c else acc) x)

/-- `_tournament_selection` (lines 217-220): sample `min(3, len)` members
and return the fittest. -/
def tournament_selection (stream : Nat → Nat) (ctr : Nat)
    (sorted_pop : List (Ind × ℚ)) : Except String (Ind × Nat) :=
  let t := pySample stream ctr sorted_pop (min 3 sorted_pop.length)
  match pyMaxBySnd t.1 with
  | .error e => .error e
  | .ok p => .ok (p.1, t.2)

/-- `_crossover` (lines 222-233): single-point crossover;
`random.randint(1, min(len)-1)` raises when both parents are non-empty
but the shorter has length 1. -/
def crossover (stream : Nat → Nat) (ctr : Nat) (p1 p2 : Ind) :
    Except String ((Ind × Ind) × Nat) :=
  if p1 = [] ∨ p2 = [] then .ok ((p1, p2), ctr)
  else
    let m := min p1.length p2.length
    if m - 1 < 1 then .error "empty range for randrange() (1, 1, 0)"
    else
      let cp := 1 + stream ctr % (m - 1)
      .ok ((p1.take cp ++ p2.drop cp, p2.take cp ++ p1.drop cp), ctr + 1)

/-- `_mutate` (lines 235-265): pick two quarter indices; when both
quarters are non-empty and the indices differ, swap one randomly chosen
course between them and adjust each quarter's unit total by the unit
delta.  (Python swaps through shared dict references; the functional
rendering produces the same individual.) -/
def mutate (stream : Nat → Nat) (ctr : Nat) (ind : Ind) : Ind × Nat :=
  if ind = [] then (ind, ctr)
  else if 2 ≤ ind.length then
    let q1 := stream ctr % ind.length
    let q2 := stream (ctr + 1) % ind.length
    let quarter1 := ind.getD q1 default
    let quarter2 := ind.getD q2 default
    if quarter1.courses ≠ [] ∧ quarter2.courses ≠ [] ∧ q1 ≠ q2 then
      let c1i := stream (ctr + 2) % quarter1.courses.length
      let c2i := stream (ctr + 3) % quarter2.courses.length
      let course1 := quarter1.courses.getD c1i default
      let course2 := quarter2.courses.getD c2i default
      let newq1 : QuarterRec := ⟨quarter1.quarter, quarter1.courses.set c1i course2,
        quarter1.total_units + course2.units - course1.units⟩
      let newq2 : QuarterRec := ⟨quarter2.quarter, quarter2.courses.set c2i course1,
        quarter2.total_units + course1.units - course2.units⟩
      ((ind.set q1 newq1).set q2 newq2, ctr + 4)
    else (ind, ctr + 2)
  else (ind, ctr)

/-- Stable-descending insertion for
`sorted(zip(population, fitness_scores), key=lambda x: x[1], reverse=True)`:
a new element moves past exactly the strictly-less-fit ones, so earlier
elements keep their position on ties, as Python's stable sort does. -/
def insertDesc (x : Ind × ℚ) : List (Ind × ℚ) → List (Ind × ℚ)
  | [] => [x]
  | y :: ys => if x.2 > y.2 then x :: y :: ys else y :: insertDesc x ys

/-- `sorted(..., reverse=True)` on (individual, fitness) pairs. -/
def sortedDesc (l : List (Ind × ℚ)) : List (Ind × ℚ) :=
  l.foldl (fun acc x => insertDesc x acc) []

/-- The offspring loop of `_evolve_population` (lines 202-213): while the
new population is short, two tournament parents produce two crossover
children, each mutated with probability `mutation_rate` (the `random()`
draw is always consumed).  Two children join per iteration, so `popSize`
fuel outlasts the loop. -/
def evolveFillGo (stream : Nat → Nat) (mutRate : ℚ)
    (sorted_pop : List (Ind × ℚ)) (popSize : Nat) :
    Nat → Nat → List Ind → Except String (List Ind × Nat)
  | 0, ctr, acc => .ok (acc, ctr)
  | fuel + 1, ctr, acc =>
      if acc.length < popSize then
        match tournament_selection stream ctr sorted_pop with
        | .error e => .error e
        | .ok (p1, ctr1) =>
          match tournament_selection stream ctr1 sorted_pop with
          | .error e => .error e
          | .ok (p2, ctr2) =>
            match crossover stream ctr2 p1 p2 with
            | .error e => .error e
            | .ok ((c1, c2), ctr3) =>
                let m1 := if randFloat (stream ctr3) < mutRate then
                    mutate stream (ctr3 + 1) c1
                  else (c1, ctr3 + 1)
                let m2 := if randFloat (stream m1.2) < mutRate then
                    mutate stream (m1.2 + 1) c2
                  else (c2, m1.2 + 1)
                evolveFillGo stream mutRate sorted_pop popSize fuel m2.2
                  (acc ++ [m1.1, m2.1])
      else .ok (acc, ctr)

/-- `_evolve_population` (lines 190-215): stable-descending sort by
fitness, keep the `elite_size` best (`sorted_pop[i]` raises when the
population is shorter than that), fill with offspring, truncate to
`population_size`. -/
def evolve_population (stream : Nat → Nat) (ctr : Nat) (mutRate : ℚ)
    (population : List Ind) (fitness_scores : List ℚ)
    (popSize eliteSize : Nat) : Except String (List Ind × Nat) :=
  if (sortedDesc (population.zip fitness_scores)).length < eliteSize then
    .error "list index out of range"
  else
    match evolveFillGo stream mutRate (sortedDesc (population.zip fitness_scores))
        popSize popSize ctr
        (((sortedDesc (population.zip fitness_scores)).take eliteSize).map Prod.fst) with
    | .error e => .error e
    | .ok r => .ok (r.1.take popSize, r.2)

/-- One step of the best tracking inside the generation loop
(lines 64-67): `best_score` starts at `-inf` (modelled as `none`) and a
strictly greater score replaces the best individual. -/
def bestStep (fit : Ind → ℚ) (b : Option (Ind × ℚ)) (ind : Ind) :
    Option (Ind × ℚ) :=
  match b with
  | none => some (ind, fit ind)
  | some (bi, bs) => if fit ind > bs then some (ind, fit ind) else some (bi, bs)

/-- The per-individual best tracking over one generation (lines 60-67). -/
def trackBest (fit : Ind → ℚ) (best : Option (Ind × ℚ)) (population : List Ind) :
    Option (Ind × ℚ) :=
  population.foldl (bestStep fit) best

/-- The `for generation in range(self.generations)` loop of
`optimize_schedule` (lines 58-74): evaluate fitness and track the
best-ever individual, evolve, and break early after generation 20 once
the population has converged. -/
def generationLoop (stream : Nat → Nat) (fit : Ind → ℚ) (mutRate : ℚ)
    (popSize eliteSize : Nat) :
    Nat → Nat → Nat → List Ind → Option (Ind × ℚ) →
      Except String (Option (Ind × ℚ) × Nat)
  | 0, _, ctr, _, best => .ok (best, ctr)
  | gens + 1, genIdx, ctr, population, best =>
      match evolve_population stream ctr mutRate population (population.map fit)
          popSize eliteSize with
      | .error e => .error e
      | .ok (pop', ctr') =>
          if genIdx > 20 ∧ has_converged (population.map fit) then
            .ok (trackBest fit best population, ctr')
          else generationLoop stream fit mutRate popSize eliteSize gens (genIdx + 1)
            ctr' pop' (trackBest fit best population)

/-- `_convert_to_solution` (lines 281-305): a falsy best individual
(`None` or the empty list) yields the "No valid schedule found" failure;
otherwise the final unit-bound check records violations, with only an
exceeded maximum forcing `feasible = false`. -/
def convert_to_solution (best : Option (Ind × ℚ)) (constraints : Constraints) :
    SchedulingSolution :=
  match best with
  | none => ⟨[], 0, false, ["No valid schedule found"]⟩
  | some (ind, score) =>
      if ind = [] then ⟨[], 0, false, ["No valid schedule found"]⟩
      else
        let res := ind.foldl
          (fun (acc : List String × Bool) q =>
            if q.total_units > constraints.maxUnits then
              (acc.1 ++ ["Quarter " ++ q.quarter ++ " exceeds max units: " ++
                toString q.total_units], false)
            else if q.total_units < constraints.minUnits ∧ q.courses ≠ [] then
              (acc.1 ++ ["Quarter " ++ q.quarter ++ " below min units: " ++
                toString q.total_units], acc.2)
            else acc)
          ([], true)
        ⟨ind, score, res.2, res.1⟩

/-- `optimize_schedule` (lines 44-80): initialize the population, run the
generation loop, convert the best individual; any exception `e` raised
inside becomes the `except`-branch solution `[str(e)]`.  Preferences
enter only through the abstracted fitness function.  `elite_size =
max(2, population_size // 10)` is fixed in `__init__` (line 42). -/
def optimize_schedule (fit : Ind → ℚ) (popSize gens : Nat) (mutRate : ℚ)
    (stream : Nat → Nat) (courses : List SchedulingNode)
    (constraints : Constraints) : SchedulingSolution :=
  let eliteSize := max 2 (popSize / 10)
  let init := initPopGo stream courses constraints constraints.maxQuarters popSize 0 []
  match generationLoop stream fit mutRate popSize eliteSize gens 0 init.2 init.1 none with
  | .ok (best, _) => convert_to_solution best constraints
  | .error e => ⟨[], 0, false, [e]⟩

end GeneticScheduler

/-- Year component of the term at index `i`: `2024 + i // 3`. -/
def quarterYear (i : Nat) : Nat := 2024 + i / 3

/-- Season rank of the term at index `i` (Fall 0, Winter 1, Spring 2):
`i % 3`, matching the cycle order of `quarterSeasons`. -/
def seasonRank (i : Nat) : Nat := i % 3

/-- The set of course ids mentioned in a schedule: the loop
`for quarter in schedule: for course in quarter['courses']: set.add(course['id'])`
(lines 563-572). -/
def courseIdSet (schedule : List QuarterRec) : Finset String :=
  schedule.foldl (fun acc q => q.courses.foldl (fun a c => insert c.id a) acc) ∅

/-- `calculate_schedule_similarity` (lines 557-578): 0 if either schedule
list is empty, otherwise the Jaccard similarity of the two course-id sets
(0 again when the union is empty). -/
def calculate_schedule_similarity (schedule1 schedule2 : List QuarterRec) : ℚ :=
  if schedule1 = [] ∨ schedule2 = [] then 0
  else
    let courses1 := courseIdSet schedule1
    let courses2 := courseIdSet schedule2
    let intersection : Nat := (courses1 ∩ courses2).card
    let union : Nat := (courses1 ∪ courses2).card
    if 0 < union then (intersection : ℚ) / (union : ℚ) else 0

/-- `min_distance` accumulation inside `optimize_schedule_diversity`
(lines 595-599): start at `float('inf')` (modelled as `⊤ : WithTop ℚ`) and
take the minimum of `1 - similarity(candidate, s)` over the selected
schedules `s`. -/
def minDistanceTo (candidate : List QuarterRec) (selected : List (List QuarterRec)) :
    WithTop ℚ :=
  selected.foldl
    (fun acc s => min acc ((1 - calculate_schedule_similarity candidate s : ℚ) : WithTop ℚ))
    ⊤

/-- One candidate step of the scan inside `optimize_schedule_diversity`
(lines 594-603): keep the candidate if its minimum distance to `selected`
strictly exceeds the best so far. -/
def pickStep (selected : List (List QuarterRec))
    (acc : Option (List QuarterRec) × WithTop ℚ) (candidate : List QuarterRec) :
    Option (List QuarterRec) × WithTop ℚ :=
  let d := minDistanceTo candidate selected
  if acc.2 < d then (some candidate, d) else acc

/-- The inner candidate scan of `optimize_schedule_diversity`
(lines 591-603): fold `pickStep` over `remaining`, starting from
`best_schedule = None`, `best_min_distance = -1`. -/
def pickBest (remaining : List (List QuarterRec)) (selected : List (List QuarterRec)) :
    Option (List QuarterRec) × WithTop ℚ :=
  remaining.foldl (pickStep selected) (none, ((-1 : ℚ) : WithTop ℚ))

/-- The `while len(selected) < target_count and remaining` loop
(lines 589-607).  `if best_schedule:` is Python truthiness: when the chosen
best schedule is the empty list the body appends nothing and the loop
state never changes again, so the source loops forever; that divergence is
modelled as `none`.  When `pickBest` returns no candidate (only possible
with empty `remaining`) the loop condition fails.  The fuel argument only
bounds the recursion; each executed iteration grows `selected`, so with
fuel `target_count` it never runs out before the loop condition fails. -/
def diversityLoop (target_count : Nat) :
    Nat → List (List QuarterRec) → List (List QuarterRec) →
      Option (List (List QuarterRec))
  | 0, selected, remaining =>
      if selected.length < target_count ∧ remaining ≠ [] then none else some selected
  | fuel + 1, selected, remaining =>
      if selected.length < target_count ∧ remaining ≠ [] then
        match (pickBest remaining selected).1 with
        | some best =>
            if best = [] then none
            else diversityLoop target_count fuel (selected ++ [best]) (remaining.erase best)
        | none => some selected
      else some selected

/-- `optimize_schedule_diversity` (lines 580-609).  Returns `none` exactly
when the source diverges (see `diversityLoop`). -/
def optimize_schedule_diversity (schedules : List (List QuarterRec))
    (target_count : Nat := 3) : Option (List (List QuarterRec)) :=
  if schedules.length ≤ target_count then some schedules
  else
    diversityLoop target_count target_count [schedules.headD []] (schedules.drop 1)

end StudyStrata

namespace StudyStrata

/-- **C7.** The quarter-label function is total and deterministic (it is a
plain function of the index); index 0 ↦ "Fall 2024", 1 ↦ "Winter 2024",
3 ↦ "Fall 2025"; every label is `<season> <year>` with season
`quarterSeasons[i % 3]` and year `2024 + i / 3`; the map
`i ↦ (year, season-rank)` is strictly increasing; and the genetic, CSP and
graph versions agree on every index. -/
theorem C7_quarter_label :
    GraphBasedScheduler.get_quarter_name 0 = "Fall 2024" ∧
    GraphBasedScheduler.get_quarter_name 1 = "Winter 2024" ∧
    GraphBasedScheduler.get_quarter_name 3 = "Fall 2025" ∧
    (∀ i : Nat, GraphBasedScheduler.get_quarter_name i =
        (quarterSeasons.getD (i % 3) "") ++ " " ++ toString (2024 + i / 3)) ∧
    (∀ i j : Nat, i < j →
        quarterYear i < quarterYear j ∨
          (quarterYear i = quarterYear j ∧ seasonRank i < seasonRank j)) ∧
    (∀ i : Nat,
        GeneticScheduler.get_quarter_name i = GraphBasedScheduler.get_quarter_name i ∧
        ConstraintSatisfactionScheduler.get_quarter_name i =
          GraphBasedScheduler.get_quarter_name i) := by
  refine ⟨rfl, rfl, rfl, fun i => rfl, ?_, fun i => ⟨rfl, rfl⟩⟩
  intro i j hij
  unfold quarterYear seasonRank
  omega

/-- Witness for C7: the hypothesis `i < j` discharged at `1 < 3`. -/
theorem C7_quarter_label_witness :
    quarterYear 1 < quarterYear 3 ∨
      (quarterYear 1 = quarterYear 3 ∧ seasonRank 1 < seasonRank 3) :=
  C7_quarter_label.2.2.2.2.1 1 3 (by decide)

/-- **C8.** `calculate_schedule_similarity` is the Jaccard similarity of
the two course-id sets: on non-empty schedule lists it equals
`|A ∩ B| / |A ∪ B|`; it is symmetric; it returns 0 when either schedule
list is empty or the course-id sets are disjoint; and on any schedule with
a non-empty course-id set, `similarity(a,a) = 1`. -/
theorem C8_similarity_jaccard :
    (∀ a b, a ≠ [] → b ≠ [] →
        calculate_schedule_similarity a b =
          ((courseIdSet a ∩ courseIdSet b).card : ℚ) /
            ((courseIdSet a ∪ courseIdSet b).card : ℚ)) ∧
    (∀ a b, calculate_schedule_similarity a b = calculate_schedule_similarity b a) ∧
    (∀ a b, a = [] ∨ b = [] → calculate_schedule_similarity a b = 0) ∧
    (∀ a b, Disjoint (courseIdSet a) (courseIdSet b) →
        calculate_schedule_similarity a b = 0) ∧
    (∀ a, courseIdSet a ≠ ∅ → calculate_schedule_similarity a a = 1) := by
  refine ⟨?_, ?_, ?_, ?_, ?_⟩
  · intro a b ha hb
    by_cases hu : 0 < (courseIdSet a ∪ courseIdSet b).card
    · simp [calculate_schedule_similarity, ha, hb, hu]
    · have h0 : (courseIdSet a ∪ courseIdSet b).card = 0 := by omega
      have hi : (courseIdSet a ∩ courseIdSet b).card = 0 := by
        have := Finset.card_le_card
          (Finset.inter_subset_union (s := courseIdSet a) (t := courseIdSet b))
        omega
      simp [calculate_schedule_similarity, ha, hb, hu, h0, hi]
  · intro a b
    by_cases h1 : a = [] <;> by_cases h2 : b = [] <;>
      simp [calculate_schedule_similarity, h1, h2, Finset.inter_comm, Finset.union_comm]
  · intro a b h
    rcases h with h | h <;> simp [calculate_schedule_similarity, h]
  · intro a b hd
    have hi : (courseIdSet a ∩ courseIdSet b).card = 0 := by
      rw [Finset.disjoint_iff_inter_eq_empty.mp hd]; rfl
    by_cases h1 : a = [] <;> by_cases h2 : b = [] <;>
      · simp only [calculate_schedule_similarity, h1, h2]
        split <;> simp_all
  · intro a ha
    have hne : a ≠ [] := by
      intro h; subst h; exact ha rfl
    have hcard : 0 < (courseIdSet a).card :=
      Finset.card_pos.mpr (Finset.nonempty_iff_ne_empty.mpr ha)
    have : ((courseIdSet a).card : ℚ) ≠ 0 := by
      exact_mod_cast Nat.pos_iff_ne_zero.mp hcard
    simp [calculate_schedule_similarity, hne, Finset.inter_self, Finset.union_self,
      hcard, div_self this]

/-- Witness for C8 at concrete inputs: a one-quarter schedule with course
"A" against itself and against an empty list. -/
theorem C8_similarity_jaccard_witness :
    calculate_schedule_similarity [⟨"Fall 2024", [⟨"A", 4, 1⟩], 4⟩] [] = 0 ∧
    calculate_schedule_similarity [⟨"Fall 2024", [⟨"A", 4, 1⟩], 4⟩]
      [⟨"Fall 2024", [⟨"A", 4, 1⟩], 4⟩] = 1 :=
  ⟨C8_similarity_jaccard.2.2.1 _ [] (Or.inr rfl),
   C8_similarity_jaccard.2.2.2.2 [⟨"Fall 2024", [⟨"A", 4, 1⟩], 4⟩] (by decide)⟩

/-- Similarity never exceeds 1 (`|A ∩ B| ≤ |A ∪ B|`). -/
theorem similarity_le_one (a b : List QuarterRec) :
    calculate_schedule_similarity a b ≤ 1 := by
  by_cases h1 : a = []
  · simp [calculate_schedule_similarity, h1]
  · by_cases h2 : b = []
    · simp [calculate_schedule_similarity, h1, h2]
    · by_cases hu : 0 < (courseIdSet a ∪ courseIdSet b).card
      · have hle : (courseIdSet a ∩ courseIdSet b).card ≤
            (courseIdSet a ∪ courseIdSet b).card :=
          Finset.card_le_card Finset.inter_subset_union
        simp only [calculate_schedule_similarity, h1, h2, or_self, if_false, hu, if_true]
        rw [div_le_one (by exact_mod_cast hu)]
        exact_mod_cast hle
      · simp [calculate_schedule_similarity, h1, h2, hu]

/-- Every distance `1 - similarity` is strictly above the `-1` sentinel,
so `minDistanceTo` always is as well. -/
theorem neg_one_lt_minDistanceTo (c : List QuarterRec)
    (sel : List (List QuarterRec)) :
    ((-1 : ℚ) : WithTop ℚ) < minDistanceTo c sel := by
  have aux : ∀ (l : List (List QuarterRec)) (acc : WithTop ℚ),
      ((-1 : ℚ) : WithTop ℚ) < acc →
      ((-1 : ℚ) : WithTop ℚ) <
        l.foldl (fun a s =>
          min a ((1 - calculate_schedule_similarity c s : ℚ) : WithTop ℚ)) acc := by
    intro l
    induction l with
    | nil => intro acc h; exact h
    | cons s rest ih =>
      intro acc h
      refine ih _ (lt_min h ?_)
      rw [WithTop.coe_lt_coe]
      have := similarity_le_one c s
      linarith
  exact aux sel _ (WithTop.coe_lt_top _)

/-- Behaviour of the candidate-scan fold: the result is either the initial
accumulator or a scanned candidate paired with its own minimum distance;
the best distance only grows; and it dominates every scanned candidate's
minimum distance. -/
theorem pickStep_foldl_spec (sel : List (List QuarterRec)) :
    ∀ (rem : List (List QuarterRec)) (acc : Option (List QuarterRec) × WithTop ℚ),
      (rem.foldl (pickStep sel) acc = acc ∨
        ∃ b ∈ rem, rem.foldl (pickStep sel) acc = (some b, minDistanceTo b sel)) ∧
      acc.2 ≤ (rem.foldl (pickStep sel) acc).2 ∧
      ∀ c ∈ rem, minDistanceTo c sel ≤ (rem.foldl (pickStep sel) acc).2 := by
  intro rem
  induction rem with
  | nil =>
    intro acc
    exact ⟨Or.inl rfl, le_refl _, by simp⟩
  | cons c rest ih =>
    intro acc
    have hstep : pickStep sel acc c = acc ∨
        pickStep sel acc c = (some c, minDistanceTo c sel) := by
      simp only [pickStep]
      split
      · exact Or.inr rfl
      · exact Or.inl rfl
    have hle : acc.2 ≤ (pickStep sel acc c).2 := by
      simp only [pickStep]
      split
      · exact le_of_lt (by assumption)
      · exact le_refl _
    have hc : minDistanceTo c sel ≤ (pickStep sel acc c).2 := by
      simp only [pickStep]
      split
      · exact le_refl _
      · exact le_of_not_lt (by assumption)
    obtain ⟨ha, hb, hcc⟩ := ih (pickStep sel acc c)
    rw [List.foldl_cons]
    refine ⟨?_, le_trans hle hb, ?_⟩
    · rcases ha with ha | ⟨b, hbmem, hbeq⟩
      · rcases hstep with h | h
        · exact Or.inl (ha.trans h)
        · exact Or.inr ⟨c, List.mem_cons_self c rest, ha.trans h⟩
      · exact Or.inr ⟨b, List.mem_cons_of_mem c hbmem, hbeq⟩
    · intro x hx
      rcases List.mem_cons.mp hx with h | h
      · subst h; exact le_trans hc hb
      · exact hcc x h

/-- When `pickBest` yields a candidate, that candidate was in `remaining`,
the reported distance is its own minimum distance to `selected`, and no
remaining candidate has a larger minimum distance. -/
theorem pickBest_some (sel rem : List (List QuarterRec)) (b : List QuarterRec)
    (d : WithTop ℚ) (h : pickBest rem sel = (some b, d)) :
    b ∈ rem ∧ d = minDistanceTo b sel ∧
      ∀ c ∈ rem, minDistanceTo c sel ≤ d := by
  obtain ⟨ha, _, hcc⟩ := pickStep_foldl_spec sel rem (none, ((-1 : ℚ) : WithTop ℚ))
  unfold pickBest at h
  rcases ha with ha | ⟨b', hbmem, hbeq⟩
  · rw [ha] at h
    exact absurd (congrArg Prod.fst h) (by simp)
  · rw [hbeq] at h
    have hb' : b' = b ∧ minDistanceTo b' sel = d := by simpa using h
    obtain ⟨rfl, hd⟩ := hb'
    refine ⟨hbmem, hd.symm, ?_⟩
    intro c hcmem
    have := hcc c hcmem
    rw [hbeq] at this
    simpa [hd] using this

/-- On a non-empty remaining list, `pickBest` always selects something:
the first candidate already beats the `-1` sentinel. -/
theorem pickBest_ne_none (sel : List (List QuarterRec))
    (rem : List (List QuarterRec)) (h : rem ≠ []) :
    ∃ b, (pickBest rem sel).1 = some b := by
  match rem with
  | c :: rest =>
    unfold pickBest
    rw [List.foldl_cons]
    have hfirst : pickStep sel (none, ((-1 : ℚ) : WithTop ℚ)) c =
        (some c, minDistanceTo c sel) := by
      unfold pickStep
      rw [if_pos (neg_one_lt_minDistanceTo c sel)]
    rw [hfirst]
    obtain ⟨ha, _, _⟩ := pickStep_foldl_spec sel rest (some c, minDistanceTo c sel)
    rcases ha with ha | ⟨b, _, hbeq⟩
    · exact ⟨c, by rw [ha]⟩
    · exact ⟨b, by rw [hbeq]⟩

/-- The `BEq`-based `List.erase` used in `diversityLoop` agrees with the
`DecidableEq`-based one the library lemmas are stated for. -/
theorem erase_canon (l : List (List QuarterRec)) (b : List QuarterRec) :
    l.erase b = @List.erase _ instBEqOfDecidableEq l b := by
  induction l with
  | nil => rfl
  | cons x xs ih =>
    simp only [List.erase_cons, beq_eq_decide, ih]

/-- Head of an appended list, when the left part is non-empty. -/
theorem headD_append_of_ne_nil {α : Type} (l₁ l₂ : List α) (d : α) (h : l₁ ≠ []) :
    (l₁ ++ l₂).headD d = l₁.headD d := by
  cases l₁ with
  | nil => exact absurd rfl h
  | cons a t => rfl

/-- Invariants of the greedy diversity loop: starting from a non-empty
selection with no duplicates across selection and remainder, no empty
schedule anywhere, selection within budget and enough fuel, the loop
terminates with the original head preserved, final length
`min target (selected + remaining)`, and no duplicates. -/
theorem diversityLoop_spec (k : Nat) :
    ∀ (fuel : Nat) (selected remaining : List (List QuarterRec)),
      selected ≠ [] →
      (selected ++ remaining).Nodup →
      [] ∉ selected →
      [] ∉ remaining →
      selected.length ≤ k →
      k ≤ selected.length + fuel →
      ∃ r, diversityLoop k fuel selected remaining = some r ∧
        r.headD [] = selected.headD [] ∧
        r.length = min k (selected.length + remaining.length) ∧
        r.Nodup := by
  intro fuel
  induction fuel with
  | zero =>
    intro selected remaining hne hnd hsel hrem hlek hge
    have hcond : ¬ (selected.length < k ∧ remaining ≠ []) := by
      rintro ⟨hlt, _⟩; omega
    refine ⟨selected, ?_, rfl, ?_, (List.nodup_append.mp hnd).1⟩
    · simp only [diversityLoop, if_neg hcond]
    · have : selected.length = k := by omega
      rw [this]
      omega
  | succ fuel ih =>
    intro selected remaining hne hnd hsel hrem hlek hge
    by_cases hcond : selected.length < k ∧ remaining ≠ []
    · obtain ⟨hlt, hrne⟩ := hcond
      obtain ⟨b, hb⟩ := pickBest_ne_none selected remaining hrne
      have hfull : pickBest remaining selected = (some b, (pickBest remaining selected).2) := by
        rw [← hb]
      obtain ⟨hbmem, -, -⟩ :=
        pickBest_some selected remaining b (pickBest remaining selected).2 hfull
      have hbne : b ≠ [] := fun h => hrem (h ▸ hbmem)
      have hcnd : selected.length < k ∧ remaining ≠ [] := ⟨hlt, hrne⟩
      have hloop : diversityLoop k (fuel + 1) selected remaining =
          diversityLoop k fuel (selected ++ [b]) (remaining.erase b) := by
        simp only [diversityLoop, if_pos hcnd, hb, if_neg hbne]
      have hperm : (selected ++ remaining).Perm ((selected ++ [b]) ++ remaining.erase b) := by
        rw [List.append_assoc, List.singleton_append, erase_canon]
        exact List.Perm.append_left selected (List.perm_cons_erase hbmem)
      have hnd' : ((selected ++ [b]) ++ remaining.erase b).Nodup := hperm.nodup hnd
      have hsel' : [] ∉ selected ++ [b] := by
        intro hx
        rcases List.mem_append.mp hx with hx | hx
        · exact hsel hx
        · exact hbne (List.mem_singleton.mp hx).symm
      have hrem' : [] ∉ remaining.erase b :=
        fun hx => hrem (List.mem_of_mem_erase hx)
      have hne' : selected ++ [b] ≠ [] := by
        cases selected with
        | nil => exact absurd rfl hne
        | cons a t => simp
      have hlen' : (selected ++ [b]).length ≤ k := by
        simp only [List.length_append, List.length_singleton]
        omega
      have hge' : k ≤ (selected ++ [b]).length + fuel := by
        simp only [List.length_append, List.length_singleton]
        omega
      obtain ⟨r, heq, hhead, hlen, hnodup⟩ :=
        ih (selected ++ [b]) (remaining.erase b) hne' hnd' hsel' hrem' hlen' hge'
      refine ⟨r, hloop.trans heq, ?_, ?_, hnodup⟩
      · rw [hhead, headD_append_of_ne_nil _ _ _ hne]
      · have hlenerase : (remaining.erase b).length = remaining.length - 1 :=
          List.length_erase_of_mem hbmem
        rw [hlen, hlenerase]
        have hrpos : 0 < remaining.length := List.length_pos.mpr hrne
        have harg : (selected ++ [b]).length + (remaining.length - 1) =
            selected.length + remaining.length := by
          simp only [List.length_append, List.length_singleton]
          omega
        rw [harg]
    · refine ⟨selected, ?_, rfl, ?_, (List.nodup_append.mp hnd).1⟩
      · simp only [diversityLoop, if_neg hcond]
      · rcases Decidable.not_and_iff_or_not.mp hcond with h | h
        · have : selected.length = k := by omega
          rw [this]; omega
        · have : remaining = [] := Decidable.not_not.mp h
          subst this
          simp only [List.length_nil, Nat.add_zero]
          omega

/-- **C9 counterexample.** On the candidate list `[s, s]` (the same
schedule twice) with `k = 2`, the function returns `[s, s]`: exactly
`min(k, len)` schedules and the first candidate included, but with a
duplicate — refuting the claim's "no duplicates" for arbitrary non-empty
candidate lists. -/
theorem C9_diversity_counterexample :
    optimize_schedule_diversity
        [[⟨"Fall 2024", [⟨"A", 4, 1⟩], 4⟩], [⟨"Fall 2024", [⟨"A", 4, 1⟩], 4⟩]] 2 =
      some [[⟨"Fall 2024", [⟨"A", 4, 1⟩], 4⟩], [⟨"Fall 2024", [⟨"A", 4, 1⟩], 4⟩]] ∧
    ¬ ([[⟨"Fall 2024", [⟨"A", 4, 1⟩], 4⟩], [⟨"Fall 2024", [⟨"A", 4, 1⟩], 4⟩]] :
        List (List QuarterRec)).Nodup :=
  ⟨rfl, by decide⟩

/-- **C9 (amended).** For every candidate list of pairwise-distinct,
non-empty schedules and every `k ≥ 1`, `optimize_schedule_diversity`
terminates (the source loops forever when a selected best schedule is the
empty list, modelled by `none`), keeps `candidates[0]` first, returns
exactly `min(k, len(candidates))` schedules with no duplicates, is
deterministic given the input order (it is a pure function of its
arguments), and every candidate chosen by the scan is a remaining
candidate whose minimum Jaccard distance to the already-selected
schedules is largest. -/
theorem C9_diversity_amended (schedules : List (List QuarterRec)) (k : Nat)
    (h1 : schedules ≠ []) (h2 : schedules.Nodup) (h3 : [] ∉ schedules)
    (h4 : 1 ≤ k) :
    (∃ r, optimize_schedule_diversity schedules k = some r ∧
        r.headD [] = schedules.headD [] ∧
        r.length = min k schedules.length ∧
        r.Nodup) ∧
    (∀ rem sel b d, pickBest rem sel = (some b, d) →
        b ∈ rem ∧ d = minDistanceTo b sel ∧
          ∀ c ∈ rem, minDistanceTo c sel ≤ d) := by
  refine ⟨?_, fun rem sel b d h => pickBest_some sel rem b d h⟩
  by_cases hle : schedules.length ≤ k
  · refine ⟨schedules, ?_, rfl, ?_, h2⟩
    · simp only [optimize_schedule_diversity, if_pos hle]
    · omega
  · cases schedules with
    | nil => exact absurd rfl h1
    | cons c0 rest =>
      have hc0 : c0 ≠ [] := fun h => h3 (h ▸ List.mem_cons_self c0 rest)
      have hstart : optimize_schedule_diversity (c0 :: rest) k =
          diversityLoop k k [c0] rest := by
        simp only [optimize_schedule_diversity, if_neg hle]
        rfl
      obtain ⟨r, heq, hhead, hlen, hnodup⟩ :=
        diversityLoop_spec k k [c0] rest (by simp)
          (by simpa using h2)
          (by simpa using hc0.symm)
          (fun hx => h3 (List.mem_cons_of_mem c0 hx))
          (by simpa using h4)
          (by simp)
      refine ⟨r, hstart.trans heq, hhead, ?_, hnodup⟩
      rw [hlen]
      simp only [List.length_singleton, List.length_cons, List.length_nil]
      omega

/-- Witness for C9 (amended) at three concrete pairwise-distinct non-empty
candidate schedules and `k = 2`. -/
theorem C9_diversity_amended_witness :
    ∃ r, optimize_schedule_diversity
        [[⟨"Fall 2024", [⟨"A", 4, 1⟩], 4⟩],
         [⟨"Fall 2024", [⟨"B", 4, 1⟩], 4⟩],
         [⟨"Fall 2024", [⟨"C", 4, 1⟩], 4⟩]] 2 = some r ∧
      r.headD [] = [⟨"Fall 2024", [⟨"A", 4, 1⟩], 4⟩] ∧
      r.length = 2 ∧ r.Nodup := by
  obtain ⟨⟨r, h, hh, hl, hn⟩, -⟩ :=
    C9_diversity_amended
      [[⟨"Fall 2024", [⟨"A", 4, 1⟩], 4⟩],
       [⟨"Fall 2024", [⟨"B", 4, 1⟩], 4⟩],
       [⟨"Fall 2024", [⟨"C", 4, 1⟩], 4⟩]] 2
      (by decide) (by decide) (by decide) (by decide)
  exact ⟨r, h, hh, hl, hn⟩

namespace GraphBasedScheduler

/-- `idsIn` distributes over appending one quarter. -/
theorem idsIn_append (qs : List QuarterRec) (q : QuarterRec) :
    idsIn (qs ++ [q]) = idsIn qs ++ q.courses.map CourseEntry.id := by
  simp [idsIn]

/-- What one quarter scan produces: the collected entries extend the
accumulator, the completed set extends by exactly the new entries' ids,
and every new entry comes from a `course_data` course all of whose
prerequisites are in the final completed set. -/
theorem scanQuarter_spec (cd : List (String × SchedulingNode)) (season : String)
    (mx mn : Int) :
    ∀ (snapshot : List String) (qc : List CourseEntry) (qu : Int)
      (remaining completed : List String),
      ∃ newEntries : List CourseEntry,
        (scanQuarter cd season mx mn snapshot qc qu remaining completed).1 =
          qc ++ newEntries ∧
        (scanQuarter cd season mx mn snapshot qc qu remaining completed).2.2.2 =
          completed ++ newEntries.map CourseEntry.id ∧
        ∀ e ∈ newEntries, ∃ course, cd.lookup e.id = some course ∧
          ∀ p ∈ course.prerequisites,
            p ∈ (scanQuarter cd season mx mn snapshot qc qu remaining completed).2.2.2 := by
  intro snapshot
  induction snapshot with
  | nil =>
    intro qc qu remaining completed
    exact ⟨[], by simp [scanQuarter], by simp [scanQuarter], by simp⟩
  | cons cid rest ih =>
    intro qc qu remaining completed
    cases hlk : cd.lookup cid with
    | none =>
      simpa only [scanQuarter, hlk] using ih qc qu remaining completed
    | some course =>
      by_cases h1 : ¬ (∀ p ∈ course.prerequisites, p ∈ completed)
      · simpa only [scanQuarter, hlk, if_pos h1] using ih qc qu remaining completed
      · by_cases h2 : season ∉ course.offered_quarters
        · simpa only [scanQuarter, hlk, if_neg h1, if_pos h2] using
            ih qc qu remaining completed
        · by_cases h3 : qu + course.units > mx
          · simpa only [scanQuarter, hlk, if_neg h1, if_neg h2, if_pos h3] using
              ih qc qu remaining completed
          · have hpre : ∀ p ∈ course.prerequisites, p ∈ completed := not_not.mp h1
            by_cases h4 : qu + course.units ≥ mn ∧
                (qc ++ [CourseEntry.mk cid course.units course.difficulty]).length ≥ 3
            · refine ⟨[CourseEntry.mk cid course.units course.difficulty], ?_, ?_, ?_⟩
              · simp only [scanQuarter, hlk, if_neg h1, if_neg h2, if_neg h3, if_pos h4]
              · simp only [scanQuarter, hlk, if_neg h1, if_neg h2, if_neg h3, if_pos h4,
                  List.map_cons, List.map_nil]
              · intro e he
                rw [List.mem_singleton] at he
                subst he
                refine ⟨course, hlk, ?_⟩
                intro p hp
                simp only [scanQuarter, hlk, if_neg h1, if_neg h2, if_neg h3, if_pos h4]
                exact List.mem_append_left _ (hpre p hp)
            · obtain ⟨newE, hqc, hcomp, hprereqs⟩ :=
                ih (qc ++ [CourseEntry.mk cid course.units course.difficulty])
                  (qu + course.units) (remaining.erase cid) (completed ++ [cid])
              have hstep : scanQuarter cd season mx mn (cid :: rest) qc qu remaining completed =
                  scanQuarter cd season mx mn rest
                    (qc ++ [CourseEntry.mk cid course.units course.difficulty])
                    (qu + course.units)
                    (remaining.erase cid) (completed ++ [cid]) := by
                simp only [scanQuarter, hlk, if_neg h1, if_neg h2, if_neg h3, if_neg h4]
              refine ⟨CourseEntry.mk cid course.units course.difficulty :: newE, ?_, ?_, ?_⟩
              · rw [hstep, hqc, List.append_assoc, List.singleton_append]
              · rw [hstep, hcomp, List.append_assoc, List.singleton_append, List.map_cons]
              · intro e he
                rcases List.mem_cons.mp he with he | he
                · subst he
                  refine ⟨course, hlk, ?_⟩
                  intro p hp
                  rw [hstep, hcomp]
                  exact List.mem_append_left _ (List.mem_append_left _ (hpre p hp))
                · obtain ⟨course', hlk', hsub⟩ := hprereqs e he
                  refine ⟨course', hlk', ?_⟩
                  intro p hp
                  rw [hstep]
                  exact hsub p hp

/-- The schedule loop preserves the per-quarter prerequisite invariant:
if everything completed so far already appears in the schedule, every
quarter the loop appends only contains courses whose prerequisites appear
no later than that quarter. -/
theorem scheduleLoop_quarterOk (cd : List (String × SchedulingNode))
    (mx mn : Int) :
    ∀ (fuel idx : Nat) (remaining completed : List String)
      (schedule : List QuarterRec),
      quarterOk cd schedule →
      (∀ x ∈ completed, x ∈ idsIn schedule) →
      quarterOk cd (scheduleLoop cd mx mn fuel idx remaining completed schedule) := by
  intro fuel
  induction fuel with
  | zero =>
    intro idx remaining completed schedule hok hc
    simpa only [scheduleLoop] using hok
  | succ fuel ih =>
    intro idx remaining completed schedule hok hc
    by_cases hrem : remaining = []
    · simpa only [scheduleLoop, if_pos hrem] using hok
    · obtain ⟨newE, hqc, hcomp, hprereqs⟩ :=
        scanQuarter_spec cd (quarterSeason idx) mx mn remaining [] 0 remaining completed
      rw [List.nil_append] at hqc
      by_cases hempty :
          (scanQuarter cd (quarterSeason idx) mx mn remaining [] 0 remaining completed).1 = []
      · have hstep : scheduleLoop cd mx mn (fuel + 1) idx remaining completed schedule =
            scheduleLoop cd mx mn fuel (idx + 1)
              (scanQuarter cd (quarterSeason idx) mx mn remaining [] 0 remaining completed).2.2.1
              (scanQuarter cd (quarterSeason idx) mx mn remaining [] 0 remaining completed).2.2.2
              schedule := by
          simp only [scheduleLoop, if_neg hrem, hempty, if_pos]
        rw [hstep]
        refine ih (idx + 1) _ _ schedule hok ?_
        intro x hx
        rw [hcomp] at hx
        rcases List.mem_append.mp hx with hx | hx
        · exact hc x hx
        · rw [hempty] at hqc
          rw [← hqc] at hx
          simp at hx
      · have hstep : scheduleLoop cd mx mn (fuel + 1) idx remaining completed schedule =
            scheduleLoop cd mx mn fuel (idx + 1)
              (scanQuarter cd (quarterSeason idx) mx mn remaining [] 0 remaining completed).2.2.1
              (scanQuarter cd (quarterSeason idx) mx mn remaining [] 0 remaining completed).2.2.2
              (schedule ++ [⟨get_quarter_name idx,
                (scanQuarter cd (quarterSeason idx) mx mn remaining [] 0 remaining completed).1,
                (scanQuarter cd (quarterSeason idx) mx mn remaining [] 0 remaining completed).2.1⟩]) := by
          simp only [scheduleLoop, if_neg hrem, if_neg hempty]
        rw [hstep]
        set q : QuarterRec := ⟨get_quarter_name idx,
          (scanQuarter cd (quarterSeason idx) mx mn remaining [] 0 remaining completed).1,
          (scanQuarter cd (quarterSeason idx) mx mn remaining [] 0 remaining completed).2.1⟩ with hq
        have hcompsub : ∀ x ∈ (scanQuarter cd (quarterSeason idx) mx mn
            remaining [] 0 remaining completed).2.2.2, x ∈ idsIn (schedule ++ [q]) := by
          intro x hx
          rw [hcomp] at hx
          rw [idsIn_append]
          rcases List.mem_append.mp hx with hx | hx
          · exact List.mem_append_left _ (hc x hx)
          · refine List.mem_append_right _ ?_
            rw [hq]
            simpa [hqc] using hx
        refine ih (idx + 1) _ _ (schedule ++ [q]) ?_ hcompsub
        intro i hi e he
        rw [List.length_append, List.length_singleton] at hi
        by_cases hilt : i < schedule.length
        · have hget : (schedule ++ [q]).get ⟨i, by simpa using hi⟩ =
              schedule.get ⟨i, hilt⟩ := by
            rw [List.get_append _ hilt]
          rw [hget] at he
          obtain ⟨course, hlook, hsub⟩ := hok i hilt e he
          refine ⟨course, hlook, ?_⟩
          intro p hp
          have htake : (schedule ++ [q]).take (i + 1) = schedule.take (i + 1) :=
            List.take_append_of_le_length (by omega)
          rw [htake]
          exact hsub p hp
        · have hieq : i = schedule.length := by omega
          subst hieq
          have hget : (schedule ++ [q]).get ⟨schedule.length, by simpa⟩ = q := by
            simp [List.get_eq_getElem]
          rw [hget] at he
          have heq' : e ∈ newE := by
            rw [hq] at he
            simpa [hqc] using he
          obtain ⟨course, hlook, hsub⟩ := hprereqs e heq'
          refine ⟨course, hlook, ?_⟩
          intro p hp
          have htake : (schedule ++ [q]).take (schedule.length + 1) = schedule ++ [q] := by
            apply List.take_of_length_le
            simp
          rw [htake]
          exact hcompsub p (hsub p hp)

/-- Adding prerequisite edges never touches `course_data`. -/
theorem addPrereqEdge_course_data (cid : String) (s : GraphState) (p : String) :
    (addPrereqEdge cid s p).course_data = s.course_data := by
  unfold addPrereqEdge
  split <;> rfl

/-- The edge phase of `_build_graph` never touches `course_data`. -/
theorem edge_phase_course_data (courses : List SchedulingNode) :
    ∀ st : GraphState, (courses.foldl addCourseEdges st).course_data = st.course_data := by
  induction courses with
  | nil => intro st; rfl
  | cons c t ih =>
    intro st
    rw [List.foldl_cons, ih]
    show (c.prerequisites.foldl (addPrereqEdge c.course_id) st).course_data = _
    induction c.prerequisites generalizing st with
    | nil => rfl
    | cons p ps ihp =>
      rw [List.foldl_cons, ihp, addPrereqEdge_course_data]

/-- The node phase of `_build_graph` on distinct fresh course ids appends
one `course_data` entry per course, in order. -/
theorem node_phase_course_data :
    ∀ (courses : List SchedulingNode) (st : GraphState),
      (courses.map SchedulingNode.course_id).Nodup →
      (∀ c ∈ courses, c.course_id ∉ st.course_data.map Prod.fst) →
      (courses.foldl addCourseNode st).course_data =
        st.course_data ++ courses.map (fun c => (c.course_id, c)) := by
  intro courses
  induction courses with
  | nil => intro st _ _; simp
  | cons a t ih =>
    intro st hnd hfresh
    rw [List.foldl_cons]
    have hstep : (addCourseNode st a).course_data = st.course_data ++ [(a.course_id, a)] := by
      unfold addCourseNode dictInsert
      simp only
      rw [if_neg (hfresh a (List.mem_cons_self a t))]
    have hnd' : (t.map SchedulingNode.course_id).Nodup :=
      (List.nodup_cons.mp (by simpa using hnd)).2
    have hfresh' : ∀ c ∈ t, c.course_id ∉ (addCourseNode st a).course_data.map Prod.fst := by
      intro c hc
      rw [hstep]
      simp only [List.map_append, List.mem_append]
      rintro (hmem | hmem)
      · exact hfresh c (List.mem_cons_of_mem a hc) hmem
      · have hca : c.course_id = a.course_id := by simpa using hmem
        have : a.course_id ∈ t.map SchedulingNode.course_id :=
          hca ▸ List.mem_map_of_mem SchedulingNode.course_id hc
        exact (List.nodup_cons.mp (by simpa using hnd)).1 this
    rw [ih (addCourseNode st a) hnd' hfresh', hstep]
    simp

/-- On a fresh instance with distinct course ids, `course_data` after
`_build_graph` is exactly the id-keyed list of input courses. -/
theorem build_graph_course_data (courses : List SchedulingNode)
    (hnd : (courses.map SchedulingNode.course_id).Nodup) :
    (build_graph GraphState.init courses).course_data =
      courses.map (fun c => (c.course_id, c)) := by
  unfold build_graph
  rw [edge_phase_course_data,
    node_phase_course_data courses GraphState.init hnd (by intro c _; simp [GraphState.init])]
  rfl

/-- Looking a course id up in the id-keyed list returns that course, when
ids are distinct. -/
theorem lookup_course_pairs :
    ∀ (courses : List SchedulingNode),
      (courses.map SchedulingNode.course_id).Nodup →
      ∀ c ∈ courses,
        (courses.map (fun x => (x.course_id, x))).lookup c.course_id = some c := by
  intro courses
  induction courses with
  | nil => intro _ c hc; exact absurd hc (List.not_mem_nil c)
  | cons a t ih =>
    intro hnd c hc
    rcases List.mem_cons.mp hc with rfl | hct
    · simp [List.lookup]
    · have hne : (c.course_id == a.course_id) = false := by
        rw [beq_eq_false_iff_ne]
        intro heq
        have : a.course_id ∈ t.map SchedulingNode.course_id :=
          heq ▸ List.mem_map_of_mem SchedulingNode.course_id hct
        exact (List.nodup_cons.mp (by simpa using hnd)).1 this
      have hnd' : (t.map SchedulingNode.course_id).Nodup :=
        (List.nodup_cons.mp (by simpa using hnd)).2
      simp only [List.map_cons, List.lookup, hne]
      exact ih hnd' c hct

/-- **C1 counterexample.** On input A (no prerequisites, Fall, 4 units)
and B (prerequisite A, Fall, 4 units) with default constraints, the graph
scheduler places both A and B into the single term "Fall 2024": B's
prerequisite A is *not* in a strictly earlier term, refuting the claim as
stated. -/
theorem C1_prereq_ordering_counterexample :
    (createOptimalScheduleFresh
        [⟨"A", 4, 1, [], ["Fall"]⟩, ⟨"B", 4, 1, ["A"], ["Fall"]⟩] {}).quarters =
      [⟨"Fall 2024", [⟨"A", 4, 1⟩, ⟨"B", 4, 1⟩], 8⟩] ∧
    ¬ prereqsStrictlyEarlier
        [⟨"A", 4, 1, [], ["Fall"]⟩, ⟨"B", 4, 1, ["A"], ["Fall"]⟩]
        (createOptimalScheduleFresh
          [⟨"A", 4, 1, [], ["Fall"]⟩, ⟨"B", 4, 1, ["A"], ["Fall"]⟩] {}).quarters :=
  ⟨by decide, by decide⟩

/-- **C1 (amended).** For every course list with distinct ids and every
constraint configuration, each course the graph scheduler assigns has all
its prerequisites that are present in the input course set assigned to
the *same or a strictly earlier* term (the code marks a course completed
the moment it is admitted, so a later course in the same quarter's scan
already sees it as completed). -/
theorem C1_prereq_ordering_amended (courses : List SchedulingNode)
    (constraints : Constraints)
    (hnd : (courses.map SchedulingNode.course_id).Nodup) :
    prereqsSameOrEarlier courses
      (createOptimalScheduleFresh courses constraints).quarters := by
  unfold createOptimalScheduleFresh create_optimal_schedule
  by_cases hdag : isDag (build_graph GraphState.init courses)
  · simp only [hdag, Bool.not_true, Bool.false_eq_true, if_false]
    have hok := scheduleLoop_quarterOk
      (build_graph GraphState.init courses).course_data
      constraints.maxUnits constraints.minUnits 12 0
      (topological_sort (build_graph GraphState.init courses)) [] []
      (by intro i hi; exact absurd hi (by simp))
      (by intro x hx; exact absurd hx (List.not_mem_nil x))
    intro i hi e he c hcmem hcid p hp _
    obtain ⟨course, hlook, hsub⟩ := hok i hi e he
    exact hsub p (by
      have hlc := lookup_course_pairs courses hnd c hcmem
      rw [hcid] at hlc
      rw [build_graph_course_data courses hnd, hlc] at hlook
      rw [← Option.some.inj hlook]
      exact hp)
  · simp only [hdag, Bool.not_false, if_true]
    intro i hi
    exact absurd hi (by simp)

/-- Witness for C1 (amended) at the two-course counterexample input. -/
theorem C1_prereq_ordering_amended_witness :
    prereqsSameOrEarlier
      [⟨"A", 4, 1, [], ["Fall"]⟩, ⟨"B", 4, 1, ["A"], ["Fall"]⟩]
      (createOptimalScheduleFresh
        [⟨"A", 4, 1, [], ["Fall"]⟩, ⟨"B", 4, 1, ["A"], ["Fall"]⟩] {}).quarters :=
  C1_prereq_ordering_amended
    [⟨"A", 4, 1, [], ["Fall"]⟩, ⟨"B", 4, 1, ["A"], ["Fall"]⟩] {} (by decide)

/-- The schedule loop appends at most one quarter per fuel unit. -/
theorem scheduleLoop_length_le (cd : List (String × SchedulingNode))
    (mx mn : Int) :
    ∀ (fuel idx : Nat) (remaining completed : List String)
      (schedule : List QuarterRec),
      (scheduleLoop cd mx mn fuel idx remaining completed schedule).length ≤
        schedule.length + fuel := by
  intro fuel
  induction fuel with
  | zero =>
    intro idx r c s
    simp [scheduleLoop]
  | succ fuel ih =>
    intro idx r c s
    by_cases hrem : r = []
    · simp [scheduleLoop, hrem]
    · simp only [scheduleLoop, if_neg hrem]
      refine le_trans (ih _ _ _ _) ?_
      split
      · omega
      · simp only [List.length_append, List.length_singleton]
        omega

/-- Every quarter the schedule loop appends is labelled with a term index
below `idx + fuel`. -/
theorem scheduleLoop_labels (cd : List (String × SchedulingNode))
    (mx mn : Int) :
    ∀ (fuel idx : Nat) (remaining completed : List String)
      (schedule : List QuarterRec),
      (∀ q ∈ schedule, ∃ i, i < idx ∧ q.quarter = get_quarter_name i) →
      ∀ q ∈ scheduleLoop cd mx mn fuel idx remaining completed schedule,
        ∃ i, i < idx + fuel ∧ q.quarter = get_quarter_name i := by
  intro fuel
  induction fuel with
  | zero =>
    intro idx r c s h q hq
    simp only [scheduleLoop] at hq
    obtain ⟨i, hi, he⟩ := h q hq
    exact ⟨i, by omega, he⟩
  | succ fuel ih =>
    intro idx r c s h q hq
    by_cases hrem : r = []
    · simp only [scheduleLoop, if_pos hrem] at hq
      obtain ⟨i, hi, he⟩ := h q hq
      exact ⟨i, by omega, he⟩
    · simp only [scheduleLoop, if_neg hrem] at hq
      have hpre : ∀ q' ∈ (if (scanQuarter cd (quarterSeason idx) mx mn r [] 0 r c).1 = []
          then s
          else s ++ [⟨get_quarter_name idx,
            (scanQuarter cd (quarterSeason idx) mx mn r [] 0 r c).1,
            (scanQuarter cd (quarterSeason idx) mx mn r [] 0 r c).2.1⟩]),
          ∃ i, i < idx + 1 ∧ q'.quarter = get_quarter_name i := by
        intro q' hq'
        split at hq'
        · obtain ⟨i, hi, he⟩ := h q' hq'
          exact ⟨i, by omega, he⟩
        · rcases List.mem_append.mp hq' with hq' | hq'
          · obtain ⟨i, hi, he⟩ := h q' hq'
            exact ⟨i, by omega, he⟩
          · rw [List.mem_singleton] at hq'
            subst hq'
            exact ⟨idx, by omega, rfl⟩
      obtain ⟨i, hi, he⟩ := ih (idx + 1) _ _ _ hpre q hq
      exact ⟨i, by omega, he⟩

/-- The schedule construction reads the constraints only through the two
unit bounds. -/
theorem create_schedule_from_order_congr (st : GraphState) (topo : List String)
    (c1 c2 : Constraints) (h1 : c1.maxUnits = c2.maxUnits)
    (h2 : c1.minUnits = c2.minUnits) :
    create_schedule_from_order st topo c1 = create_schedule_from_order st topo c2 := by
  unfold create_schedule_from_order
  rw [h1, h2]

/-- `create_optimal_schedule` on a fresh instance reads the constraints
only through the two unit bounds. -/
theorem createOptimalScheduleFresh_congr (courses : List SchedulingNode)
    (c1 c2 : Constraints) (h1 : c1.maxUnits = c2.maxUnits)
    (h2 : c1.minUnits = c2.minUnits) :
    createOptimalScheduleFresh courses c1 = createOptimalScheduleFresh courses c2 := by
  unfold createOptimalScheduleFresh create_optimal_schedule
  by_cases hdag : isDag (build_graph GraphState.init courses) <;>
    simp [hdag, create_schedule_from_order_congr _ _ c1 c2 h1 h2]

/-- **C2 counterexample.** With `maxTerms = 1` (the `max_quarters` key)
and a Fall-only plus a Winter-only course, the scheduler still assigns
the Winter course to term index 1, i.e. a label outside the configured
1-term budget: the hard-coded 12-term loop ignores the configuration. -/
theorem C2_term_horizon_counterexample :
    (createOptimalScheduleFresh
        [⟨"A", 4, 1, [], ["Fall"]⟩, ⟨"W", 4, 1, [], ["Winter"]⟩]
        { max_quarters := some 1 }).quarters.map QuarterRec.quarter =
      ["Fall 2024", "Winter 2024"] ∧
    Constraints.maxQuarters { max_quarters := some 1 } = 1 ∧
    "Winter 2024" ∉
      (List.range (Constraints.maxQuarters { max_quarters := some 1 })).map
        get_quarter_name :=
  ⟨by decide, rfl, by decide⟩

/-- **C2 (amended).** The graph scheduler walks a hard-coded horizon of
12 terms — not the configured max-terms value, which it never reads: every
produced quarter is labelled with a term index below 12, at most 12
quarters are produced, and the result is invariant under changing the
configuration's `max_quarters` value. -/
theorem C2_term_horizon_amended (courses : List SchedulingNode)
    (constraints : Constraints) :
    (createOptimalScheduleFresh courses constraints).quarters.length ≤ 12 ∧
    (∀ q ∈ (createOptimalScheduleFresh courses constraints).quarters,
        ∃ i, i < 12 ∧ q.quarter = get_quarter_name i) ∧
    (∀ mq, createOptimalScheduleFresh courses
        { constraints with max_quarters := mq } =
      createOptimalScheduleFresh courses constraints) := by
  refine ⟨?_, ?_, ?_⟩
  · unfold createOptimalScheduleFresh create_optimal_schedule
    by_cases hdag : isDag (build_graph GraphState.init courses)
    · simp only [hdag, Bool.not_true, Bool.false_eq_true, if_false]
      exact scheduleLoop_length_le _ _ _ 12 0 _ [] []
    · simp [hdag]
  · unfold createOptimalScheduleFresh create_optimal_schedule
    by_cases hdag : isDag (build_graph GraphState.init courses)
    · simp only [hdag, Bool.not_true, Bool.false_eq_true, if_false]
      intro q hq
      exact scheduleLoop_labels _ _ _ 12 0 _ [] []
        (by intro q' hq'; exact absurd hq' (List.not_mem_nil q')) q hq
    · simp [hdag]
  · intro mq
    exact createOptimalScheduleFresh_congr courses _ _ rfl rfl

/-- Witness for C2 (amended): the Winter-course quarter produced in the
counterexample run indeed carries a label with index below 12. -/
theorem C2_term_horizon_amended_witness :
    ∃ i, i < 12 ∧
      (⟨"Winter 2024", [⟨"W", 4, 1⟩], 4⟩ : QuarterRec).quarter = get_quarter_name i :=
  (C2_term_horizon_amended
    [⟨"A", 4, 1, [], ["Fall"]⟩, ⟨"W", 4, 1, [], ["Winter"]⟩]
    { max_quarters := some 1 }).2.1 ⟨"Winter 2024", [⟨"W", 4, 1⟩], 4⟩ (by decide)

/-- **C3 (code bug).** State persists between calls on one instance: a
first call with courses B and A (A requires B), followed by a second call
with only A, schedules the stale course B — absent from the second call's
input — while a fresh instance given only A schedules nothing.  The two
results differ, contradicting the spec's per-call lifecycle. -/
theorem C3_no_state_persistence_bug :
    (create_optimal_schedule
        (create_optimal_schedule GraphState.init
          [⟨"B", 4, 1, [], ["Fall"]⟩, ⟨"A", 4, 1, ["B"], ["Fall"]⟩] {}).2
        [⟨"A", 4, 1, ["B"], ["Fall"]⟩] {}).1 ≠
      createOptimalScheduleFresh [⟨"A", 4, 1, ["B"], ["Fall"]⟩] {} ∧
    "B" ∈ idsIn (create_optimal_schedule
        (create_optimal_schedule GraphState.init
          [⟨"B", 4, 1, [], ["Fall"]⟩, ⟨"A", 4, 1, ["B"], ["Fall"]⟩] {}).2
        [⟨"A", 4, 1, ["B"], ["Fall"]⟩] {}).1.quarters ∧
    (createOptimalScheduleFresh [⟨"A", 4, 1, ["B"], ["Fall"]⟩] {}).quarters = [] :=
  ⟨by decide, by decide, by decide⟩

/-- **C4.** A single call on a fresh instance returns exactly
`feasible = false`, empty terms and the violation
"Prerequisite cycle detected" when the built prerequisite graph
(restricted to prerequisite ids present in the input) fails the
networkx acyclicity test, and an empty violation list — so never that
violation — when the graph is acyclic. -/
theorem C4_cycle_detection (courses : List SchedulingNode)
    (constraints : Constraints) :
    (isDag (build_graph GraphState.init courses) = false →
      createOptimalScheduleFresh courses constraints =
        ⟨[], 0, false, ["Prerequisite cycle detected"]⟩) ∧
    (isDag (build_graph GraphState.init courses) = true →
      (createOptimalScheduleFresh courses constraints).violations = []) := by
  constructor <;> intro h <;>
    simp [createOptimalScheduleFresh, create_optimal_schedule, h]

/-- Witness for C4: the two-course cycle A ↔ B fails with exactly the
cycle violation, and a single acyclic course yields no violations. -/
theorem C4_cycle_detection_witness :
    createOptimalScheduleFresh
        [⟨"A", 4, 1, ["B"], ["Fall"]⟩, ⟨"B", 4, 1, ["A"], ["Fall"]⟩] {} =
      ⟨[], 0, false, ["Prerequisite cycle detected"]⟩ ∧
    (createOptimalScheduleFresh [⟨"A", 4, 1, [], ["Fall"]⟩] {}).violations = [] :=
  ⟨(C4_cycle_detection
      [⟨"A", 4, 1, ["B"], ["Fall"]⟩, ⟨"B", 4, 1, ["A"], ["Fall"]⟩] {}).1 (by decide),
   (C4_cycle_detection [⟨"A", 4, 1, [], ["Fall"]⟩] {}).2 (by decide)⟩

/-- **C5.** The end-to-end example: C1/C2 (Fall), C3/C4 (Winter, after
C1/C2), C5 (Spring, after C3+C4), C6 (Fall, after C5), all 4 units, with
max 8 / min 4 units per term and `maxTerms = 6`, lands exactly in
Fall 2024 = {C1, C2}, Winter 2024 = {C3, C4}, Spring 2024 = {C5},
Fall 2025 = {C6}, feasible and violation-free. -/
theorem C5_end_to_end :
    createOptimalScheduleFresh
      [⟨"C1", 4, 1, [], ["Fall"]⟩, ⟨"C2", 4, 1, [], ["Fall"]⟩,
       ⟨"C3", 4, 1, ["C1"], ["Winter"]⟩, ⟨"C4", 4, 1, ["C2"], ["Winter"]⟩,
       ⟨"C5", 4, 1, ["C3", "C4"], ["Spring"]⟩, ⟨"C6", 4, 1, ["C5"], ["Fall"]⟩]
      ⟨some 8, some 4, some 6⟩ =
    ⟨[⟨"Fall 2024", [⟨"C1", 4, 1⟩, ⟨"C2", 4, 1⟩], 8⟩,
      ⟨"Winter 2024", [⟨"C3", 4, 1⟩, ⟨"C4", 4, 1⟩], 8⟩,
      ⟨"Spring 2024", [⟨"C5", 4, 1⟩], 4⟩,
      ⟨"Fall 2025", [⟨"C6", 4, 1⟩], 4⟩],
     (0.85 : ℚ), true, []⟩ := by rfl

end GraphBasedScheduler

namespace ConstraintSatisfactionScheduler

/-- `minByDomainSize` only ever selects an element of its input list. -/
theorem minByDomainSize_mem (domains : List (String × List Nat)) :
    ∀ (l : List String) (v : String), minByDomainSize domains l = some v → v ∈ l := by
  intro l v h
  match l with
  | [] => exact absurd h (by simp [minByDomainSize])
  | x :: xs =>
    simp only [minByDomainSize, Option.some.injEq] at h
    have haux : ∀ (ys : List String) (b : String), b ∈ x :: xs → (∀ y ∈ ys, y ∈ x :: xs) →
        ys.foldl (fun best c =>
          if ((domains.lookup c).getD []).length < ((domains.lookup best).getD []).length
          then c else best) b ∈ x :: xs := by
      intro ys
      induction ys with
      | nil => intro b hb _; exact hb
      | cons y ys ih =>
        intro b hb hys
        rw [List.foldl_cons]
        refine ih _ ?_ (fun z hz => hys z (List.mem_cons_of_mem y hz))
        split
        · exact hys y (List.mem_cons_self y ys)
        · exact hb
    rw [← h]
    exact haux xs x (List.mem_cons_self x xs) (fun z hz => List.mem_cons_of_mem x hz)

/-- One-step equation: a complete assignment is returned immediately. -/
theorem backtrack_complete (domains : List (String × List Nat))
    (vars : List String) (fuel : Nat) (assignment : List (String × Nat))
    (hlen : assignment.length = vars.length) :
    backtrack_search domains vars fuel assignment = .ok (some assignment) := by
  rw [backtrack_search]
  rw [if_pos hlen]

/-- One-step equation: an incomplete assignment with a selected variable
and fuel left proceeds to the value loop. -/
theorem backtrack_step (domains : List (String × List Nat)) (vars : List String)
    (fuel : Nat) (assignment : List (String × Nat)) (vr : String)
    (hlen : ¬ assignment.length = vars.length)
    (hvr : minByDomainSize domains
      (vars.filter (fun v => !(assignment.map Prod.fst).contains v)) = some vr) :
    backtrack_search domains vars (fuel + 1) assignment =
      tryValues (backtrack_search domains vars fuel) vr ((domains.lookup vr).getD []) assignment := by
  rw [backtrack_search]
  rw [if_neg hlen, hvr]

/-- One-step equation: with no unassigned variable left but an incomplete
assignment, Python's `min([])` raises. -/
theorem backtrack_step_empty (domains : List (String × List Nat)) (vars : List String)
    (fuel : Nat) (assignment : List (String × Nat))
    (hlen : ¬ assignment.length = vars.length)
    (hvr : minByDomainSize domains
      (vars.filter (fun v => !(assignment.map Prod.fst).contains v)) = none) :
    backtrack_search domains vars fuel assignment =
      .error "min() arg is an empty sequence" := by
  rw [backtrack_search]
  rw [if_neg hlen, hvr]

/-- One-step equation: fuel exhaustion (unreachable from the top-level
call) is an error. -/
theorem backtrack_step_zero (domains : List (String × List Nat)) (vars : List String)
    (assignment : List (String × Nat)) (vr : String)
    (hlen : ¬ assignment.length = vars.length)
    (hvr : minByDomainSize domains
      (vars.filter (fun v => !(assignment.map Prod.fst).contains v)) = some vr) :
    backtrack_search domains vars 0 assignment =
      .error "maximum recursion depth exceeded" := by
  rw [backtrack_search]
  rw [if_neg hlen, hvr]

/-- With pairwise-distinct variables, the backtracking search never
raises: every reachable state has an unassigned variable to select and
enough fuel left. -/
theorem backtrack_no_error (domains : List (String × List Nat))
    (vars : List String) (hvnd : vars.Nodup) :
    ∀ (fuel : Nat) (assignment : List (String × Nat)),
      (assignment.map Prod.fst).Nodup →
      (∀ k ∈ assignment.map Prod.fst, k ∈ vars) →
      vars.length - assignment.length < fuel →
      ∃ r, backtrack_search domains vars fuel assignment = .ok r := by
  intro fuel
  induction fuel with
  | zero =>
    intro assignment _ _ h3
    exact absurd h3 (by omega)
  | succ fuel ih =>
    intro assignment h1 h2 h3
    by_cases hlen : assignment.length = vars.length
    · exact ⟨some assignment, backtrack_complete domains vars _ assignment hlen⟩
    · have hsub : List.Subperm (assignment.map Prod.fst) vars :=
        List.subperm_of_subset h1 h2
      have hlenle : assignment.length ≤ vars.length := by
        have := hsub.length_le
        simpa using this
      have hlt : assignment.length < vars.length := lt_of_le_of_ne hlenle hlen
      have hune : vars.filter (fun v => !(assignment.map Prod.fst).contains v) ≠ [] := by
        intro hempty
        have hall : ∀ v ∈ vars, v ∈ assignment.map Prod.fst := by
          intro v hv
          by_contra hnv
          have : v ∈ vars.filter (fun v => !(assignment.map Prod.fst).contains v) := by
            rw [List.mem_filter]
            exact ⟨hv, by simpa using hnv⟩
          rw [hempty] at this
          exact List.not_mem_nil v this
        have hsub2 : List.Subperm vars (assignment.map Prod.fst) :=
          List.subperm_of_subset hvnd hall
        have := hsub2.length_le
        simp at this
        omega
      obtain ⟨vr, hvr⟩ : ∃ v, minByDomainSize domains
          (vars.filter (fun v => !(assignment.map Prod.fst).contains v)) = some v := by
        match hu : vars.filter (fun v => !(assignment.map Prod.fst).contains v) with
        | [] => exact absurd hu hune
        | x :: xs => exact ⟨_, rfl⟩
      have hvmem := minByDomainSize_mem domains _ vr hvr
      have hvnotin : vr ∉ assignment.map Prod.fst := by
        rw [List.mem_filter] at hvmem
        simpa using hvmem.2
      have hvvar : vr ∈ vars := (List.mem_filter.mp hvmem).1
      have htv : ∀ values : List Nat,
          ∃ r, tryValues (backtrack_search domains vars fuel) vr values assignment = .ok r := by
        intro values
        induction values with
        | nil => exact ⟨none, rfl⟩
        | cons value rest ihv =>
          by_cases hcons : is_consistent vr value assignment
          · have h1' : ((assignment ++ [(vr, value)]).map Prod.fst).Nodup := by
              rw [List.map_append]
              simp only [List.map_cons, List.map_nil]
              rw [List.nodup_append]
              exact ⟨h1, List.nodup_singleton vr,
                by simpa [List.disjoint_singleton] using hvnotin⟩
            have h2' : ∀ k ∈ (assignment ++ [(vr, value)]).map Prod.fst, k ∈ vars := by
              intro k hk
              rw [List.map_append, List.mem_append] at hk
              rcases hk with hk | hk
              · exact h2 k hk
              · simp at hk
                exact hk ▸ hvvar
            have h3' : vars.length - (assignment ++ [(vr, value)]).length < fuel := by
              simp only [List.length_append, List.length_singleton]
              omega
            obtain ⟨r, hr⟩ := ih (assignment ++ [(vr, value)]) h1' h2' h3'
            cases r with
            | some a => exact ⟨some a, by simp [tryValues, hcons, hr]⟩
            | none =>
              obtain ⟨r', hr'⟩ := ihv
              exact ⟨r', by simp [tryValues, hcons, hr, hr']⟩
          · obtain ⟨r', hr'⟩ := ihv
            exact ⟨r', by simp [tryValues, hcons, hr']⟩
      obtain ⟨r, hr⟩ := htv ((domains.lookup vr).getD [])
      exact ⟨r, (backtrack_step domains vars fuel assignment vr hlen hvr).trans hr⟩

/-- A successful search returns a complete assignment: one entry per
variable. -/
theorem backtrack_some_length (domains : List (String × List Nat))
    (vars : List String) :
    ∀ (fuel : Nat) (assignment : List (String × Nat)) (a : List (String × Nat)),
      backtrack_search domains vars fuel assignment = .ok (some a) →
      a.length = vars.length := by
  intro fuel
  induction fuel with
  | zero =>
    intro assignment a h
    by_cases hlen : assignment.length = vars.length
    · rw [backtrack_complete domains vars 0 assignment hlen] at h
      have : assignment = a := by simpa using h
      rw [← this]
      exact hlen
    · cases hvr : minByDomainSize domains
          (vars.filter (fun v => !(assignment.map Prod.fst).contains v)) with
      | none =>
        rw [backtrack_step_empty domains vars 0 assignment hlen hvr] at h
        exact absurd h (by simp)
      | some vr =>
        rw [backtrack_step_zero domains vars assignment vr hlen hvr] at h
        exact absurd h (by simp)
  | succ fuel ih =>
    intro assignment a h
    by_cases hlen : assignment.length = vars.length
    · rw [backtrack_complete domains vars (fuel + 1) assignment hlen] at h
      have : assignment = a := by simpa using h
      rw [← this]
      exact hlen
    · cases hvr : minByDomainSize domains
          (vars.filter (fun v => !(assignment.map Prod.fst).contains v)) with
      | none =>
        rw [backtrack_step_empty domains vars (fuel + 1) assignment hlen hvr] at h
        exact absurd h (by simp)
      | some vr =>
        rw [backtrack_step domains vars fuel assignment vr hlen hvr] at h
        have haux : ∀ (values : List Nat) (assignment' : List (String × Nat)),
            tryValues (backtrack_search domains vars fuel) vr values assignment' = .ok (some a) →
            a.length = vars.length := by
          intro values
          induction values with
          | nil => intro assignment' h'; simp [tryValues] at h'
          | cons value rest ihv =>
            intro assignment' h'
            by_cases hcons : is_consistent vr value assignment'
            · simp only [tryValues, hcons, if_true] at h'
              cases hb : backtrack_search domains vars fuel (assignment' ++ [(vr, value)]) with
              | error e => rw [hb] at h'; exact absurd h' (by simp)
              | ok r =>
                cases r with
                | some a' =>
                  rw [hb] at h'
                  have : a' = a := by simpa using h'
                  exact this ▸ ih (assignment' ++ [(vr, value)]) a' hb
                | none =>
                  rw [hb] at h'
                  exact ihv assignment' h'
            · simp only [tryValues, hcons, if_false] at h'
              exact ihv assignment' h'
        exact haux _ _ h

/-- **C6 counterexample.** On the empty course list the backtracking
search succeeds immediately (it assigns every variable, vacuously), yet
`solve_schedule` reports `feasible = false` with the "No feasible
schedule found" violation: `if assignment:` treats the empty complete
assignment as falsy, refuting the claimed "exactly when". -/
theorem C6_csp_counterexample :
    backtrack_search (setupDomains [] 12) ([] : List String) 1 [] = .ok (some []) ∧
    solve_schedule [] {} 12 = ⟨[], 0, false, ["No feasible schedule found"]⟩ :=
  ⟨rfl, rfl⟩

/-- **C6 (amended).** For every course list with at least one course and
pairwise-distinct course ids (duplicates make the search raise the
`min()`-on-empty error instead), `solve_schedule` returns feasible=true
with score 0.8 and an empty violation list exactly when the backtracking
search finds a complete assignment, converting it into the schedule;
when the search exhausts all branches it returns feasible=false, score
0, empty terms, and the single violation "No feasible schedule found";
and the search itself never raises. -/
theorem C6_csp_success_failure (courses : List SchedulingNode)
    (constraints : Constraints) (max_quarters : Nat)
    (hne : courses ≠ [])
    (hnd : (courses.map SchedulingNode.course_id).Nodup) :
    (∀ a, backtrack_search (setupDomains courses max_quarters)
        (courses.map SchedulingNode.course_id)
        ((courses.map SchedulingNode.course_id).length + 1) [] = .ok (some a) →
      solve_schedule courses constraints max_quarters =
        ⟨convert_assignment_to_schedule a courses, (0.8 : ℚ), true, []⟩) ∧
    (backtrack_search (setupDomains courses max_quarters)
        (courses.map SchedulingNode.course_id)
        ((courses.map SchedulingNode.course_id).length + 1) [] = .ok none →
      solve_schedule courses constraints max_quarters =
        ⟨[], 0, false, ["No feasible schedule found"]⟩) ∧
    (∃ r, backtrack_search (setupDomains courses max_quarters)
        (courses.map SchedulingNode.course_id)
        ((courses.map SchedulingNode.course_id).length + 1) [] = .ok r) ∧
    ((solve_schedule courses constraints max_quarters).feasible = true ↔
      ∃ a, backtrack_search (setupDomains courses max_quarters)
        (courses.map SchedulingNode.course_id)
        ((courses.map SchedulingNode.course_id).length + 1) [] = .ok (some a)) := by
  have hok : ∃ r, backtrack_search (setupDomains courses max_quarters)
      (courses.map SchedulingNode.course_id)
      ((courses.map SchedulingNode.course_id).length + 1) [] = .ok r :=
    backtrack_no_error (setupDomains courses max_quarters)
      (courses.map SchedulingNode.course_id) hnd _ []
      (by simp) (by simp) (by simp)
  have hsome : ∀ a, backtrack_search (setupDomains courses max_quarters)
      (courses.map SchedulingNode.course_id)
      ((courses.map SchedulingNode.course_id).length + 1) [] = .ok (some a) →
      solve_schedule courses constraints max_quarters =
        ⟨convert_assignment_to_schedule a courses, (0.8 : ℚ), true, []⟩ := by
    intro a ha
    have hanil : a ≠ [] := by
      intro h0
      have := backtrack_some_length (setupDomains courses max_quarters)
        (courses.map SchedulingNode.course_id) _ [] a ha
      rw [h0] at this
      simp at this
      exact hne (List.length_eq_zero.mp this.symm)
    simp only [solve_schedule, ha, if_neg hanil]
  have hnone : backtrack_search (setupDomains courses max_quarters)
      (courses.map SchedulingNode.course_id)
      ((courses.map SchedulingNode.course_id).length + 1) [] = .ok none →
      solve_schedule courses constraints max_quarters =
        ⟨[], 0, false, ["No feasible schedule found"]⟩ := by
    intro h
    simp only [solve_schedule, h]
  refine ⟨hsome, hnone, hok, ?_⟩
  obtain ⟨r, hr⟩ := hok
  cases r with
  | some a =>
    rw [hsome a hr]
    simp only [true_iff]
    exact ⟨a, hr⟩
  | none =>
    rw [hnone hr]
    constructor
    · intro h; exact absurd h (by simp)
    · rintro ⟨a, ha⟩
      rw [hr] at ha
      exact absurd ha (by simp)

/-- Witness for C6 (amended): one Fall-only course is assigned to term 0
and solved feasibly with score 0.8. -/
theorem C6_csp_success_failure_witness :
    solve_schedule [⟨"A", 4, 1, [], ["Fall"]⟩] {} 12 =
      ⟨convert_assignment_to_schedule [("A", 0)] [⟨"A", 4, 1, [], ["Fall"]⟩],
        (0.8 : ℚ), true, []⟩ :=
  (C6_csp_success_failure [⟨"A", 4, 1, [], ["Fall"]⟩] {} 12
    (by decide) (by decide)).1 [("A", 0)] (by rfl)

end ConstraintSatisfactionScheduler

namespace GeneticScheduler

/-- Every element the draw-and-remove engine emits came from the input
list. -/
theorem shuffleGo_mem {α : Type} (stream : Nat → Nat) :
    ∀ (fuel ctr : Nat) (l : List α) (x : α),
      x ∈ (shuffleGo stream fuel ctr l).1 → x ∈ l := by
  intro fuel
  induction fuel with
  | zero =>
    intro ctr l x hx
    simp [shuffleGo] at hx
  | succ fuel ih =>
    intro ctr l x hx
    match l with
    | [] => simp [shuffleGo] at hx
    | a :: as =>
      rw [shuffleGo] at hx
      simp only at hx
      split at hx
      · simp at hx
      · rename_i y rest hd
        simp only [List.mem_cons] at hx
        rcases hx with rfl | hx
        · exact List.drop_subset _ _ (hd ▸ List.mem_cons_self x rest)
        · have := ih _ _ _ hx
          rcases List.mem_append.mp this with h | h
          · exact List.take_subset _ _ h
          · exact List.drop_subset _ (a :: as) (hd ▸ List.mem_cons_of_mem y h)

/-- The engine emits `min fuel (length l)` elements. -/
theorem shuffleGo_length {α : Type} (stream : Nat → Nat) :
    ∀ (fuel ctr : Nat) (l : List α),
      (shuffleGo stream fuel ctr l).1.length = min fuel l.length := by
  intro fuel
  induction fuel with
  | zero =>
    intro ctr l
    simp [shuffleGo]
  | succ fuel ih =>
    intro ctr l
    match l with
    | [] => simp [shuffleGo]
    | a :: as =>
      rw [shuffleGo]
      simp only [List.length_cons]
      have hj : stream ctr % (as.length + 1) < as.length + 1 :=
        Nat.mod_lt _ (by omega)
      split
      · rename_i hd
        have hlen := congrArg List.length hd
        simp only [List.length_drop, List.length_cons, List.length_nil] at hlen
        omega
      · rename_i y rest hd
        have hlen := congrArg List.length hd
        simp only [List.length_drop, List.length_cons] at hlen
        simp only [List.length_cons, ih, List.length_append, List.length_take]
        omega

/-- With a zero unit cap and genuinely weighted courses, one quarter scan
admits nothing and leaves its state untouched. -/
theorem scanGeneticQuarter_maxzero (season : String) :
    ∀ (snapshot : List SchedulingNode) (remaining : List SchedulingNode)
      (completed : List String),
      (∀ c ∈ snapshot, 1 ≤ c.units) →
      scanGeneticQuarter season 0 snapshot [] 0 remaining completed =
        ([], 0, remaining, completed) := by
  intro snapshot
  induction snapshot with
  | nil => intro remaining completed _; rfl
  | cons course rest ih =>
    intro remaining completed hunits
    have hrest : ∀ c ∈ rest, 1 ≤ c.units :=
      fun c hc => hunits c (List.mem_cons_of_mem course hc)
    have hcourse : 1 ≤ course.units := hunits course (List.mem_cons_self course rest)
    by_cases hA : ¬ (∀ p ∈ course.prerequisites, p ∈ completed)
    · rw [scanGeneticQuarter, if_pos hA]
      exact ih remaining completed hrest
    · by_cases hB : season ∉ course.offered_quarters
      · rw [scanGeneticQuarter, if_neg hA, if_pos hB]
        exact ih remaining completed hrest
      · rw [scanGeneticQuarter, if_neg hA, if_neg hB,
          if_pos (show (0 : Int) + course.units > 0 by omega)]
        exact ih remaining completed hrest

/-- With a zero unit cap, the whole random-schedule loop emits only what
it started with: no quarter is ever appended. -/
theorem createRandomScheduleLoop_maxzero (stream : Nat → Nat) :
    ∀ (fuel qidx ctr : Nat) (remaining : List SchedulingNode)
      (completed : List String) (schedule : List QuarterRec),
      (∀ c ∈ remaining, 1 ≤ c.units) →
      (createRandomScheduleLoop stream 0 fuel qidx ctr remaining completed schedule).1 =
        schedule := by
  intro fuel
  induction fuel with
  | zero =>
    intro qidx ctr remaining completed schedule _
    rfl
  | succ fuel ih =>
    intro qidx ctr remaining completed schedule hunits
    by_cases hrem : remaining = []
    · rw [createRandomScheduleLoop, if_pos hrem]
    · rw [createRandomScheduleLoop, if_neg hrem]
      have hsh : ∀ c ∈ (pyShuffle stream ctr remaining).1, 1 ≤ c.units :=
        fun c hc => hunits c (shuffleGo_mem stream _ _ _ c hc)
      have hscan := scanGeneticQuarter_maxzero
        (quarterSeasons.getD (qidx % 3) "")
        (pyShuffle stream ctr remaining).1 (pyShuffle stream ctr remaining).1
        completed hsh
      simp only [hscan]
      exact ih (qidx + 1) _ _ completed schedule hsh

/-- With a zero `max_units_per_quarter`, every individual of the initial
population is the empty schedule. -/
theorem initPopGo_maxzero (stream : Nat → Nat) (courses : List SchedulingNode)
    (constraints : Constraints) (max_quarters : Nat)
    (hunits : ∀ c ∈ courses, 1 ≤ c.units)
    (hmax : constraints.max_units_per_quarter = some 0) :
    ∀ (n ctr : Nat) (acc : List Ind),
      (initPopGo stream courses constraints max_quarters n ctr acc).1 =
        acc ++ List.replicate n [] := by
  have hmu : constraints.maxUnits = 0 := by
    unfold Constraints.maxUnits
    rw [hmax]
    rfl
  intro n
  induction n with
  | zero => intro ctr acc; simp [initPopGo]
  | succ n ih =>
    intro ctr acc
    rw [initPopGo]
    have hcr : (create_random_schedule stream ctr courses constraints max_quarters).1 = [] := by
      unfold create_random_schedule
      rw [hmu]
      exact createRandomScheduleLoop_maxzero stream max_quarters 0 ctr courses [] [] hunits
    rw [ih]
    rw [hcr]
    rw [List.append_assoc]
    rfl

/-- Inserting an element into unit-repetitions of itself just lengthens
the repetition, whichever comparison branch is taken. -/
theorem insertDesc_const (x : Ind × ℚ) :
    ∀ n : Nat, insertDesc x (List.replicate n x) = List.replicate (n + 1) x := by
  intro n
  induction n with
  | zero => rfl
  | succ n ih =>
    rw [List.replicate_succ, insertDesc]
    split
    · rfl
    · rw [ih]
      rfl

/-- Sorting a constant list is the identity. -/
theorem sortedDesc_const (x : Ind × ℚ) (n : Nat) :
    sortedDesc (List.replicate n x) = List.replicate n x := by
  have haux : ∀ (m k : Nat),
      (List.replicate m x).foldl (fun acc y => insertDesc y acc)
        (List.replicate k x) = List.replicate (k + m) x := by
    intro m
    induction m with
    | zero => intro k; simp
    | succ m ih =>
      intro k
      rw [List.replicate_succ, List.foldl_cons, insertDesc_const x k, ih]
      congr 1
      omega
  unfold sortedDesc
  simpa using haux n 0

/-- Python's `max` over a list of copies of one pair returns that pair. -/
theorem pyMaxBySnd_const (x : Ind × ℚ) :
    ∀ xs : List (Ind × ℚ), (∀ y ∈ xs, y = x) → pyMaxBySnd (x :: xs) = .ok x := by
  have haux : ∀ (xs : List (Ind × ℚ)), (∀ y ∈ xs, y = x) →
      xs.foldl (fun acc c => if c.2 > acc.2 then c else acc) x = x := by
    intro xs
    induction xs with
    | nil => intro _; rfl
    | cons y ys ih =>
      intro h
      rw [List.foldl_cons]
      have hy : y = x := h y (List.mem_cons_self y ys)
      subst hy
      rw [if_neg (lt_irrefl y.2)]
      exact ih (fun z hz => h z (List.mem_cons_of_mem y hz))
  intro xs h
  simp only [pyMaxBySnd]
  rw [haux xs h]

/-- Tournament selection over a constant population returns that
population's individual. -/
theorem tournament_const (stream : Nat → Nat) (p : Ind × ℚ) (m : Nat) :
    ∀ ctr : Nat, ∃ ctr', tournament_selection stream ctr
      (List.replicate (m + 1) p) = .ok (p.1, ctr') := by
  intro ctr
  have hlen : (pySample stream ctr (List.replicate (m + 1) p)
      (min 3 (List.replicate (m + 1) p).length)).1.length =
      min (min 3 (m + 1)) (m + 1) := by
    unfold pySample
    rw [shuffleGo_length]
    simp
  have hpos : 0 < (pySample stream ctr (List.replicate (m + 1) p)
      (min 3 (List.replicate (m + 1) p).length)).1.length := by
    rw [hlen]; omega
  have hmem : ∀ y ∈ (pySample stream ctr (List.replicate (m + 1) p)
      (min 3 (List.replicate (m + 1) p).length)).1, y = p := by
    intro y hy
    exact List.eq_of_mem_replicate (shuffleGo_mem stream _ _ _ y hy)
  match ht : (pySample stream ctr (List.replicate (m + 1) p)
      (min 3 (List.replicate (m + 1) p).length)).1 with
  | [] => rw [ht] at hpos; simp at hpos
  | q :: qs =>
    have hq : q = p := hmem q (ht ▸ List.mem_cons_self q qs)
    have hqs : ∀ y ∈ qs, y = p := fun y hy => hmem y (ht ▸ List.mem_cons_of_mem q hy)
    refine ⟨(pySample stream ctr (List.replicate (m + 1) p)
      (min 3 (List.replicate (m + 1) p).length)).2, ?_⟩
    unfold tournament_selection
    simp only [ht, hq, pyMaxBySnd_const p qs hqs]

/-- Over a constant all-empty population, the offspring loop fills the
new population with empty individuals and reaches the population size. -/
theorem evolveFillGo_allnil (stream : Nat → Nat) (mutRate : ℚ) (s : ℚ)
    (m popSize : Nat) :
    ∀ (fuel ctr : Nat) (acc : List Ind),
      (∀ y ∈ acc, y = ([] : Ind)) →
      popSize ≤ acc.length + 2 * fuel →
      ∃ r, evolveFillGo stream mutRate (List.replicate (m + 1) (([] : Ind), s))
          popSize fuel ctr acc = .ok r ∧
        (∀ y ∈ r.1, y = ([] : Ind)) ∧ popSize ≤ r.1.length := by
  intro fuel
  induction fuel with
  | zero =>
    intro ctr acc hacc hge
    exact ⟨(acc, ctr), rfl, hacc, by simpa using hge⟩
  | succ fuel ih =>
    intro ctr acc hacc hge
    by_cases hlt : acc.length < popSize
    · obtain ⟨ctr1, ht1⟩ := tournament_const stream (([] : Ind), s) m ctr
      obtain ⟨ctr2, ht2⟩ := tournament_const stream (([] : Ind), s) m ctr1
      have ht1' : tournament_selection stream ctr (List.replicate (m + 1) (([] : Ind), s)) =
          .ok (([] : Ind), ctr1) := ht1
      have ht2' : tournament_selection stream ctr1 (List.replicate (m + 1) (([] : Ind), s)) =
          .ok (([] : Ind), ctr2) := ht2
      have hcx : crossover stream ctr2 [] [] = .ok ((([] : Ind), ([] : Ind)), ctr2) := by
        unfold crossover
        rw [if_pos (Or.inl rfl)]
      have hmut : ∀ c : Nat, mutate stream c ([] : Ind) = ([], c) := by
        intro c
        unfold mutate
        rw [if_pos rfl]
      rw [evolveFillGo]
      rw [if_pos hlt]
      simp only [ht1', ht2', hcx, hmut, ite_self]
      refine ih _ (acc ++ [[], []]) ?_ ?_
      · intro y hy
        rcases List.mem_append.mp hy with hy | hy
        · exact hacc y hy
        · simpa using hy
      · simp only [List.length_append, List.length_cons, List.length_nil]
        omega
    · rw [evolveFillGo, if_neg hlt]
      refine ⟨(acc, ctr), rfl, hacc, ?_⟩
      simp only
      omega

/-- Evolving a population of ten empty individuals yields ten empty
individuals again (for every fitness value and stream). -/
theorem evolve_population_allnil (stream : Nat → Nat) (mutRate : ℚ) (q : ℚ)
    (ctr : Nat) :
    ∃ ctr', evolve_population stream ctr mutRate (List.replicate 10 [])
      (List.replicate 10 q) 10 2 = .ok (List.replicate 10 [], ctr') := by
  have hzip : (List.replicate 10 ([] : Ind)).zip (List.replicate 10 q) =
      List.replicate 10 (([] : Ind), q) := rfl
  have helite : ((List.replicate 10 ((([] : Ind)), q)).take 2).map Prod.fst =
      [[], []] := rfl
  obtain ⟨r, hr, hall, hlen⟩ :=
    evolveFillGo_allnil stream mutRate q 9 10 10 ctr [[], []]
      (by intro y hy; simpa using hy)
      (by simp)
  have hr' : evolveFillGo stream mutRate (List.replicate 10 (([] : Ind), q))
      10 10 ctr [[], []] = Except.ok r := hr
  unfold evolve_population
  rw [hzip, sortedDesc_const]
  rw [if_neg (by simp)]
  rw [helite, hr']
  refine ⟨r.2, ?_⟩
  have htake : r.1.take 10 = List.replicate 10 ([] : Ind) := by
    apply List.eq_replicate.mpr
    constructor
    · rw [List.length_take]
      omega
    · intro y hy
      exact hall y (List.take_subset _ _ hy)
  show Except.ok (r.1.take 10, r.2) = Except.ok (List.replicate 10 ([] : Ind), r.2)
  rw [htake]

/-- Best tracking over an all-empty population keeps the empty best:
no strict fitness improvement is possible. -/
theorem trackBest_allnil_some (fit : Ind → ℚ) :
    ∀ l : List Ind, (∀ y ∈ l, y = ([] : Ind)) →
      trackBest fit (some ([], fit [])) l = some ([], fit []) := by
  intro l
  induction l with
  | nil => intro _; rfl
  | cons x xs ih =>
    intro h
    have hx : x = [] := h x (List.mem_cons_self x xs)
    subst hx
    show List.foldl (bestStep fit) _ ([] :: xs) = _
    rw [List.foldl_cons]
    have hstep : bestStep fit (some ([], fit [])) [] = some ([], fit []) := by
      show (if fit [] > fit [] then some (([] : Ind), fit []) else some (([] : Ind), fit [])) =
        some ([], fit [])
      exact ite_self _
    rw [hstep]
    exact ih (fun y hy => h y (List.mem_cons_of_mem [] hy))

/-- Best tracking from `-inf` over a non-empty all-empty population
settles on the empty individual with its fitness. -/
theorem trackBest_allnil_none (fit : Ind → ℚ) (x : Ind) (xs : List Ind)
    (hx : x = []) (hxs : ∀ y ∈ xs, y = ([] : Ind)) :
    trackBest fit none (x :: xs) = some ([], fit []) := by
  subst hx
  show List.foldl (bestStep fit) _ ([] :: xs) = _
  rw [List.foldl_cons]
  show List.foldl (bestStep fit) (some ([], fit [])) xs = _
  exact trackBest_allnil_some fit xs hxs

/-- The generation loop preserves an all-empty population of ten and the
empty best individual, whatever the stream and fitness function, and
whether or not the convergence break fires. -/
theorem generationLoop_allnil_some (stream : Nat → Nat) (fit : Ind → ℚ)
    (mutRate : ℚ) :
    ∀ (gens genIdx ctr : Nat),
      ∃ ctr', generationLoop stream fit mutRate 10 2 gens genIdx ctr
        (List.replicate 10 []) (some ([], fit [])) = .ok (some ([], fit []), ctr') := by
  intro gens
  induction gens with
  | zero => intro genIdx ctr; exact ⟨ctr, rfl⟩
  | succ gens ih =>
    intro genIdx ctr
    have hscores : (List.replicate 10 ([] : Ind)).map fit =
        List.replicate 10 (fit []) := by simp
    have hbest := trackBest_allnil_some fit (List.replicate 10 [])
      (fun y hy => List.eq_of_mem_replicate hy)
    obtain ⟨ctr', hev⟩ := evolve_population_allnil stream mutRate (fit []) ctr
    rw [generationLoop]
    rw [hscores, hev]
    simp only [hbest]
    split
    · exact ⟨ctr', rfl⟩
    · exact ih (genIdx + 1) ctr'

/-- Starting from `best = None`, the first generation over ten empty
individuals installs the empty best, and the loop keeps it. -/
theorem generationLoop_allnil_none (stream : Nat → Nat) (fit : Ind → ℚ)
    (mutRate : ℚ) (gens genIdx ctr : Nat) :
    ∃ ctr', generationLoop stream fit mutRate 10 2 (gens + 1) genIdx ctr
      (List.replicate 10 []) none = .ok (some ([], fit []), ctr') := by
  have hscores : (List.replicate 10 ([] : Ind)).map fit =
      List.replicate 10 (fit []) := by simp
  have hbest : trackBest fit none (List.replicate 10 []) = some ([], fit []) :=
    trackBest_allnil_none fit [] (List.replicate 9 []) rfl
      (fun y hy => List.eq_of_mem_replicate hy)
  obtain ⟨ctr', hev⟩ := evolve_population_allnil stream mutRate (fit []) ctr
  rw [generationLoop]
  rw [hscores, hev]
  simp only [hbest]
  split
  · exact ⟨ctr', rfl⟩
  · exact generationLoop_allnil_some stream fit mutRate gens (genIdx + 1) ctr'

/-- **C10.** With `populationSize = 10`, `generations = 5` and the
infeasible configuration `maxUnitsPerTerm = 0` (courses all having at
least one unit), the genetic scheduler terminates — the embedding is a
total function and the theorem holds for every random stream, every
mutation rate and every fitness function — and returns the
`SchedulingSolution` with empty terms, score 0, `feasible = false` and
violation "No valid schedule found".  Moreover, for every input
whatsoever, an exception inside the optimization loop surfaces only as
the returned solution `([], 0, false, [str(e)])`, never as a propagated
fault. -/
theorem C10_genetic_termination (fit : Ind → ℚ) (mutRate : ℚ)
    (stream : Nat → Nat) (courses : List SchedulingNode)
    (constraints : Constraints)
    (hunits : ∀ c ∈ courses, 1 ≤ c.units)
    (hmax : constraints.max_units_per_quarter = some 0) :
    optimize_schedule fit 10 5 mutRate stream courses constraints =
      ⟨[], 0, false, ["No valid schedule found"]⟩ ∧
    (∀ (fit' : Ind → ℚ) (popSize gens : Nat) (mutRate' : ℚ)
        (stream' : Nat → Nat) (courses' : List SchedulingNode)
        (constraints' : Constraints) (e : String),
      generationLoop stream' fit' mutRate' popSize (max 2 (popSize / 10)) gens 0
          (initPopGo stream' courses' constraints' constraints'.maxQuarters
            popSize 0 []).2
          (initPopGo stream' courses' constraints' constraints'.maxQuarters
            popSize 0 []).1 none = .error e →
        optimize_schedule fit' popSize gens mutRate' stream' courses' constraints' =
          ⟨[], 0, false, [e]⟩) := by
  constructor
  · have hinit : (initPopGo stream courses constraints constraints.maxQuarters
        10 0 []).1 = List.replicate 10 [] := by
      rw [initPopGo_maxzero stream courses constraints constraints.maxQuarters
        hunits hmax 10 0 []]
      rfl
    obtain ⟨ctr', hloop⟩ := generationLoop_allnil_none stream fit mutRate 4 0
      (initPopGo stream courses constraints constraints.maxQuarters 10 0 []).2
    have hloop' : generationLoop stream fit mutRate 10 2 5 0
        (initPopGo stream courses constraints constraints.maxQuarters 10 0 []).2
        (List.replicate 10 []) none = .ok (some ([], fit []), ctr') := hloop
    simp only [optimize_schedule]
    rw [show (max 2 (10 / 10 : Nat)) = 2 from rfl]
    rw [hinit, hloop']
    rfl
  · intro fit' popSize gens mutRate' stream' courses' constraints' e h
    simp only [optimize_schedule]
    rw [h]

/-- Witness for C10 at an entirely concrete input: one 4-unit course, the
zero stream, zero fitness, mutation rate 0.1. -/
theorem C10_genetic_termination_witness :
    optimize_schedule (fun _ => 0) 10 5 (1 / 10 : ℚ) (fun _ => 0)
      [⟨"A", 4, 1, [], ["Fall"]⟩] { max_units_per_quarter := some 0 } =
      ⟨[], 0, false, ["No valid schedule found"]⟩ :=
  (C10_genetic_termination (fun _ => 0) (1 / 10) (fun _ => 0)
    [⟨"A", 4, 1, [], ["Fall"]⟩] { max_units_per_quarter := some 0 }
    (by decide) rfl).1

end GeneticScheduler

end StudyStrata
